import Mathlib

/-!
Verification development for the TMF API directory single-page application
(`src/script.js`).  The JavaScript source is shallowly embedded below:

* pure functions of the script become Lean functions over `String`, `Int`,
  `Nat`, `Option` and `List`;
* JS `Set` / `Map` objects (which iterate in insertion order) become
  insertion-ordered lists, respectively association lists;
* `Array.prototype.sort(cmp)` (guaranteed by ECMA-262 to produce a
  stably sorted permutation w.r.t. the comparator) is embedded as an
  insertion sort `jsSort` over the boolean relation `cmp a b ≤ 0`;
* the two host facilities the script leans on — `new Date(s).getTime()`
  inside `parseDate`, and the DOM-based `stripHtml` — are taken as
  explicit function parameters (`dparse : String → Option Int`, a `none`
  result standing for an invalid date / `NaN`, and `shtml : String → String`);
* `String.prototype.localeCompare(..., \x7b sensitivity: "base" \x7d)` is
  embedded as code-point comparison of the lower-cased strings;
* fallible code (`normaliseResources`, whose `entries.forEach` can throw a
  `TypeError`, and `loadPayload`) returns `Except`.

String primitives are re-implemented over `String.data` character lists so
that every definition evaluates by kernel reduction.
-/

/-! ## Generic helpers: JS truthiness, string primitives, comparison, sorting -/

/-- Embedding of the JS idiom `x || d` for an optional string `x`:
the empty string is falsy, so it falls through to the default. -/
def jsOrS (x : Option String) (d : String) : String :=
  match x with
  | some s => if s = "" then d else s
  | none => d

/-- Embedding of `a || b` for two strings (empty string is falsy). -/
def jsOr (a b : String) : String :=
  if a = "" then b else a

/-- Embedding of `a || b` for two numbers (0 is falsy), as used to chain
comparator results. -/
def cmpOr (a b : Int) : Int :=
  if a = 0 then b else a

/-- Embedding of `String.prototype.toLowerCase`. -/
def jsToLower (s : String) : String :=
  String.mk (s.data.map Char.toLower)

/-- Whitespace trimming on a character list (both ends). -/
def trimChars (l : List Char) : List Char :=
  ((l.dropWhile Char.isWhitespace).reverse.dropWhile Char.isWhitespace).reverse

/-- Embedding of `String.prototype.trim`. -/
def jsTrim (s : String) : String :=
  String.mk (trimChars s.data)

/-- Splitting a character list at commas, as `String.prototype.split(",")` does. -/
def splitCommaAux : List Char → List Char → List String
  | [], cur => [String.mk cur.reverse]
  | c :: rest, cur =>
      if c = ',' then String.mk cur.reverse :: splitCommaAux rest [] else splitCommaAux rest (c :: cur)

/-- Embedding of `s.split(",")`. -/
def splitComma (s : String) : List String :=
  splitCommaAux s.data []

/-- Does the list `l` start with the list `p`? -/
def startsWithChars : List Char → List Char → Bool
  | [], _ => true
  | _ :: _, [] => false
  | p :: ps, c :: cs => p = c && startsWithChars ps cs

/-- Is `n` a contiguous sub-list of `h`? -/
def infixChars (n : List Char) : List Char → Bool
  | [] => startsWithChars n []
  | c :: cs => startsWithChars n (c :: cs) || infixChars n cs

/-- Embedding of `hay.includes(needle)`. -/
def jsIncludes (hay needle : String) : Bool :=
  infixChars needle.data hay.data

/-- Three-way lexicographic comparison of character lists by code point,
returning a JS-comparator-style `Int` (-1 / 0 / 1). -/
def cmpChars : List Char → List Char → Int
  | [], [] => 0
  | [], _ :: _ => -1
  | _ :: _, [] => 1
  | a :: as, b :: bs =>
      if a.toNat < b.toNat then -1
      else if b.toNat < a.toNat then 1
      else cmpChars as bs

/-- Embedding of `compareStrings` (script.js line 867): a case-insensitive
comparator (`localeCompare` with base sensitivity), modelled as code-point
comparison of the lower-cased strings. -/
def compareStrings (a b : String) : Int :=
  cmpChars (jsToLower a).data (jsToLower b).data

theorem cmpChars_swap (x y : List Char) : cmpChars y x = -cmpChars x y := by
  induction x generalizing y with
  | nil => cases y <;> simp [cmpChars]
  | cons a as ih =>
      cases y with
      | nil => simp [cmpChars]
      | cons b bs =>
          by_cases h1 : a.toNat < b.toNat
          · have h2 : ¬ b.toNat < a.toNat := by omega
            simp [cmpChars, h1, h2]
          · by_cases h2 : b.toNat < a.toNat
            · simp [cmpChars, h1, h2]
            · simp [cmpChars, h1, h2, ih]

theorem cmpChars_trans {x y z : List Char}
    (hxy : cmpChars x y ≤ 0) (hyz : cmpChars y z ≤ 0) : cmpChars x z ≤ 0 := by
  induction x generalizing y z with
  | nil => cases z <;> simp [cmpChars]
  | cons a as ih =>
      cases y with
      | nil => simp [cmpChars] at hxy
      | cons b bs =>
          cases z with
          | nil => simp [cmpChars] at hyz
          | cons c cs =>
              by_cases hab : a.toNat < b.toNat <;> by_cases hba : b.toNat < a.toNat <;>
                by_cases hbc : b.toNat < c.toNat <;> by_cases hcb : c.toNat < b.toNat <;>
                  simp_all [cmpChars] <;>
                    first
                    | (have hac : a.toNat < c.toNat := by omega
                       simp [hac])
                    | (have hac : ¬ a.toNat < c.toNat := by omega
                       have hca : ¬ c.toNat < a.toNat := by omega
                       simp [hac, hca]
                       exact ih hxy hyz)

theorem cmpChars_total (x y : List Char) : cmpChars x y ≤ 0 ∨ cmpChars y x ≤ 0 := by
  rcases le_or_lt (cmpChars x y) 0 with h | h
  · exact Or.inl h
  · right
    rw [cmpChars_swap]
    omega

theorem compareStrings_trans {x y z : String}
    (hxy : compareStrings x y ≤ 0) (hyz : compareStrings y z ≤ 0) : compareStrings x z ≤ 0 :=
  cmpChars_trans hxy hyz

theorem compareStrings_total (x y : String) : compareStrings x y ≤ 0 ∨ compareStrings y x ≤ 0 :=
  cmpChars_total _ _

/-- Insertion into a JS `Set` modelled as an insertion-ordered duplicate-free
list: `Set.prototype.add` appends only when the element is absent. -/
def insertSet (xs : List String) (x : String) : List String :=
  if x ∈ xs then xs else xs ++ [x]

theorem mem_insertSet {xs : List String} {x y : String} :
    y ∈ insertSet xs x ↔ y ∈ xs ∨ y = x := by
  unfold insertSet
  by_cases h : x ∈ xs
  · simp only [if_pos h]
    constructor
    · exact Or.inl
    · rintro (hy | rfl)
      · exact hy
      · exact h
  · simp [if_neg h]

theorem mem_foldl_insertSet {xs : List String} {l : List String} {y : String} :
    y ∈ l.foldl insertSet xs ↔ y ∈ xs ∨ y ∈ l := by
  induction l generalizing xs with
  | nil => simp
  | cons a l ih =>
      simp only [List.foldl_cons, ih, mem_insertSet, List.mem_cons]
      tauto

/-- Insertion step of the sorting routine used to embed `Array.prototype.sort`. -/
def insertSorted (le : α → α → Bool) (a : α) : List α → List α
  | [] => [a]
  | b :: l => if le a b then a :: b :: l else b :: insertSorted le a l

/-- Embedding of `Array.prototype.sort(cmp)` as an insertion sort over the
relation `cmp a b ≤ 0`; ECMA-262 only promises a sorted permutation, which
this realises. -/
def jsSort (le : α → α → Bool) : List α → List α
  | [] => []
  | a :: l => insertSorted le a (jsSort le l)

theorem insertSorted_perm (le : α → α → Bool) (a : α) (l : List α) :
    List.Perm (insertSorted le a l) (a :: l) := by
  induction l with
  | nil => simp [insertSorted]
  | cons b l ih =>
      unfold insertSorted
      by_cases h : le a b
      · simp [h]
      · simp only [if_neg h]
        exact (List.Perm.cons b ih).trans (List.Perm.swap a b l)

theorem jsSort_perm (le : α → α → Bool) (l : List α) : List.Perm (jsSort le l) l := by
  induction l with
  | nil => simp [jsSort]
  | cons a l ih =>
      exact (insertSorted_perm le a (jsSort le l)).trans (List.Perm.cons a ih)

theorem mem_jsSort {le : α → α → Bool} {l : List α} {x : α} :
    x ∈ jsSort le l ↔ x ∈ l :=
  (jsSort_perm le l).mem_iff

theorem length_jsSort (le : α → α → Bool) (l : List α) :
    (jsSort le l).length = l.length :=
  (jsSort_perm le l).length_eq

theorem mem_insertSorted {le : α → α → Bool} {l : List α} {a x : α} :
    x ∈ insertSorted le a l ↔ x = a ∨ x ∈ l := by
  have := (insertSorted_perm le a l).mem_iff (a := x)
  simpa using this

theorem pairwise_insertSorted {le : α → α → Bool}
    (trans : ∀ x y z, le x y = true → le y z = true → le x z = true)
    (total : ∀ x y, le x y = true ∨ le y x = true)
    {l : List α} (hl : l.Pairwise (fun x y => le x y = true)) (a : α) :
    (insertSorted le a l).Pairwise (fun x y => le x y = true) := by
  induction l with
  | nil => simp [insertSorted]
  | cons b l ih =>
      unfold insertSorted
      rcases List.pairwise_cons.mp hl with ⟨hb, hl'⟩
      by_cases h : le a b
      · simp only [if_pos h]
        refine List.pairwise_cons.mpr ⟨?_, hl⟩
        intro x hx
        rcases List.mem_cons.mp hx with rfl | hx
        · exact h
        · exact trans a b x h (hb x hx)
      · simp only [if_neg h]
        refine List.pairwise_cons.mpr ⟨?_, ih hl'⟩
        intro x hx
        rcases mem_insertSorted.mp hx with hxa | hx
        · subst hxa
          rcases total x b with h' | h'
          · exact absurd h' h
          · exact h'
        · exact hb x hx

theorem pairwise_jsSort {le : α → α → Bool}
    (trans : ∀ x y z, le x y = true → le y z = true → le x z = true)
    (total : ∀ x y, le x y = true ∨ le y x = true)
    (l : List α) :
    (jsSort le l).Pairwise (fun x y => le x y = true) := by
  induction l with
  | nil => simp [jsSort]
  | cons a l ih => exact pairwise_insertSorted trans total ih a

/-! ## Raw data model (script.js lines 148-295)

A raw entry is one leaf record of the fetched JSON index.  Absent / null
fields are `none`; `entry?.field` accesses in the script are `Option`
accesses here.  -/

structure RawOption where
  type : Option String
  name : Option String
  download : Option String
  defaultFlag : Option String
  icon : Option String
deriving DecidableEq

structure ApiDescription where
  api_name : Option String
  api_description : Option String
deriving DecidableEq

/-- The shape of a raw entry's `options` value as the script can observe it:
`nullish` for an absent or otherwise falsy value (which `options || []` at
line 218 replaces by the empty array), `arr` for an array, and `notArr` for a
truthy non-array value (a number, a string, a plain object, ...) — on such a
value line 218's `.forEach` throws a `TypeError`, while the read
`entry?.options?.[0]?.name` at line 154 yields no usable name (a primitive
or plain object has no download-option record at index 0). -/
inductive OptionsVal where
  | nullish
  | arr (opts : List RawOption)
  | notArr
deriving DecidableEq

structure RawEntry where
  document_number : Option String
  api_description : Option ApiDescription
  context : Option String
  lifecycle_status : Option String
  version_info : Option String
  release_info : Option String
  published_date : Option String
  notes : Option String
  options : OptionsVal
deriving DecidableEq

structure DownloadOption where
  type : String
  name : String
  downloadUrl : String
  defaultFlag : String
  icon : String
deriving DecidableEq

structure Version where
  version : String
  release : String
  lifecycle : String
  published : String
  notes : String
  options : List DownloadOption
deriving DecidableEq

structure DocAcc where
  key : String
  documentNumber : String
  apiName : String
  description : String
  categories : List String
  contexts : List String
  lifecycle : List String
  versions : List (String × Version)
deriving DecidableEq

structure Document where
  id : String
  key : String
  documentNumber : String
  apiName : String
  description : String
  categories : List String
  contexts : List String
  lifecycle : List String
  versions : List Version
  optionTypes : List String
  primaryType : String
  latestPublished : Int
  searchIndex : String
deriving DecidableEq

/-- Access path `entry?.api_description?.api_name`. -/
def entryApiNameOpt (e : RawEntry) : Option String :=
  e.api_description.bind (fun d => d.api_name)

/-- Access path `entry?.api_description?.api_description`. -/
def entryDescriptionOpt (e : RawEntry) : Option String :=
  e.api_description.bind (fun d => d.api_description)

/-- Access path `entry?.options?.[0]?.name`: the name of the first download
option when `options` is an array; a nullish or non-array `options` value has
no first option record, so the read is `undefined`. -/
def entryFirstOptionName (e : RawEntry) : Option String :=
  match e.options with
  | .arr opts => opts.head?.bind (fun o => o.name)
  | _ => none

/-- Line 154: `entry?.document_number || entry?.api_description?.api_name ||
entry?.options?.[0]?.name || "Untitled"`. -/
def entryDocumentNumber (e : RawEntry) : String :=
  jsOrS e.document_number (jsOrS (entryApiNameOpt e) (jsOrS (entryFirstOptionName e) "Untitled"))

/-- Line 155: `entry?.api_description?.api_name || documentNumber`. -/
def entryApiName (e : RawEntry) : String :=
  jsOrS (entryApiNameOpt e) (entryDocumentNumber e)

/-- Line 156: `documentNumber || apiName`. -/
def entryKey (e : RawEntry) : String :=
  jsOr (entryDocumentNumber e) (entryApiName e)

/-- Description candidate an entry contributes (lines 163 and 172-174). -/
def entryDescription (e : RawEntry) : String :=
  jsOrS (entryDescriptionOpt e) ""

/-- Lines 180-186: `String(entry.context).split(",").map(trim).filter(Boolean)`
under the truthiness guard `if (entry?.context)`. -/
def entryContexts (e : RawEntry) : List String :=
  match e.context with
  | some s => if s = "" then [] else ((splitComma s).map jsTrim).filter (fun v => v ≠ "")
  | none => []

/-- Line 192: `entry?.version_info || "Unversioned"`. -/
def entryVersionKey (e : RawEntry) : String :=
  jsOrS e.version_info "Unversioned"

/-- Lines 219-225: a pushed download option with its field defaults. -/
def mkDownloadOption (o : RawOption) : DownloadOption :=
  { type := jsOrS o.type "", name := jsOrS o.name "Download", downloadUrl := jsOrS o.download "",
    defaultFlag := jsOrS o.defaultFlag "", icon := jsOrS o.icon "" }

/-- Lines 193-202: the version object created when a version label is first seen. -/
def initVersion (e : RawEntry) : Version :=
  { version := jsOrS e.version_info "Unversioned", release := jsOrS e.release_info "",
    lifecycle := jsOrS e.lifecycle_status "", published := jsOrS e.published_date "",
    notes := jsOrS e.notes "", options := [] }

/-- The array line 218 iterates when it does not throw: `entry?.options || []`
for a nullish or array-valued field.  The `notArr` case — on which the real
line 218 throws — never reaches this function: `normaliseResources` rejects
it during the traversal (see `collectGroups`), which leaves the thrown
`Except` value unchanged since nothing recovers from the exception. -/
def entryOptionsList (e : RawEntry) : List RawOption :=
  match e.options with
  | .arr opts => opts
  | _ => []

/-- Does line 218's `(entry?.options || []).forEach(...)` throw a `TypeError`
for this entry (a truthy non-array `options` value)? -/
def entryOptionsThrow (e : RawEntry) : Bool :=
  match e.options with
  | .notArr => true
  | _ => false

/-- Lines 204-226: first-non-empty-wins updates of a version's scalar fields
plus appending the entry's download options. -/
def updateVersion (v : Version) (e : RawEntry) : Version :=
  { v with
    release := if v.release = "" then jsOrS e.release_info "" else v.release,
    lifecycle := if v.lifecycle = "" then jsOrS e.lifecycle_status "" else v.lifecycle,
    published := if v.published = "" then jsOrS e.published_date "" else v.published,
    notes := if v.notes = "" then jsOrS e.notes "" else v.notes,
    options := v.options ++ (entryOptionsList e).map mkDownloadOption }

/-- Lines 192-226 acting on the per-document version map (an insertion-ordered
association list, like a JS `Map`). -/
def updateVersions (vs : List (String × Version)) (e : RawEntry) : List (String × Version) :=
  let vk := entryVersionKey e
  let vs1 := if (vs.find? (fun p => p.1 = vk)).isSome then vs else vs ++ [(vk, initVersion e)]
  vs1.map (fun p => if p.1 = vk then (p.1, updateVersion p.2 e) else p)

/-- Lines 158-169: the accumulator created when a key is first seen. -/
def initAcc (k : String) (e : RawEntry) : DocAcc :=
  { key := k, documentNumber := entryDocumentNumber e, apiName := entryApiName e,
    description := jsOrS (entryDescriptionOpt e) "",
    categories := [], contexts := [], lifecycle := [], versions := [] }

/-- Lines 171-226: folding one entry into its accumulator.  The record fields
touched by the successive statements are independent, so the sequential
mutations are stated as one record update. -/
def updateAcc (a : DocAcc) (categoryName : String) (e : RawEntry) : DocAcc :=
  { a with
    description := if a.description = "" then jsOrS (entryDescriptionOpt e) "" else a.description,
    categories := if categoryName = "" then a.categories else insertSet a.categories categoryName,
    contexts := (entryContexts e).foldl insertSet a.contexts,
    lifecycle := match e.lifecycle_status with
      | some s => if s = "" then a.lifecycle else insertSet a.lifecycle s
      | none => a.lifecycle,
    versions := updateVersions a.versions e }

/-- Lines 153-227: processing one `(categoryName, entry)` pair against the
`documentsByKey` map (insertion-ordered association list). -/
def foldEntry (m : List (String × DocAcc)) (categoryName : String) (e : RawEntry) :
    List (String × DocAcc) :=
  let k := entryKey e
  let m1 := if (m.find? (fun p => p.1 = k)).isSome then m else m ++ [(k, initAcc k e)]
  m1.map (fun p => if p.1 = k then (p.1, updateAcc p.2 categoryName e) else p)

/-- The whole grouping pass over the flattened `(categoryName, entry)` stream. -/
def foldEntries (entries : List (String × RawEntry)) : List (String × DocAcc) :=
  entries.foldl (fun m ce => foldEntry m ce.1 ce.2) []

/-- Lines 871-875 (`parseDate`): hyphens become spaces, the result is trimmed,
and the host date parser `dparse` (modelling `new Date(s).getTime()`, `none`
for an invalid date) supplies the timestamp; `NaN` maps to 0. -/
def parseDate (dparse : String → Option Int) (value : String) : Int :=
  let cleaned := jsTrim (String.mk (value.data.map fun c => if c = '-' then ' ' else c))
  match dparse (if cleaned = "" then value else cleaned) with
  | some t => t
  | none => 0

/-- Lines 242-248: the version comparator (descending parsed date, then
descending case-insensitive label). -/
def versionCmp (dparse : String → Option Int) (a b : Version) : Int :=
  let dateDiff := parseDate dparse b.published - parseDate dparse a.published
  if dateDiff = 0 then compareStrings b.version a.version else dateDiff

def versionLe (dparse : String → Option Int) (a b : Version) : Bool :=
  versionCmp dparse a b ≤ 0

/-- Line 252: option comparator (ascending type, then name). -/
def optionCmp (a b : DownloadOption) : Int :=
  cmpOr (compareStrings a.type b.type) (compareStrings a.name b.name)

def optionLe (a b : DownloadOption) : Bool :=
  optionCmp a b ≤ 0

/-- Lines 260-261 etc.: plain ascending `compareStrings` sort. -/
def strLe (a b : String) : Bool :=
  compareStrings a b ≤ 0

/-- Line 292: final document comparator (documentNumber, then apiName). -/
def docCmp (a b : Document) : Int :=
  cmpOr (compareStrings a.documentNumber b.documentNumber) (compareStrings a.apiName b.apiName)

def docLe (a b : Document) : Bool :=
  docCmp a b ≤ 0

/-- Lines 827-834 (`createSlug`): a character kept by the regex class `[a-z0-9]`
(the value is lower-cased before the replace). -/
def isSlugChar (c : Char) : Bool :=
  (97 ≤ c.toNat && c.toNat ≤ 122) || (48 ≤ c.toNat && c.toNat ≤ 57)

/-- Replace of `/[^a-z0-9]+/g` with `"-"`: each maximal run of non-slug
characters collapses to one hyphen; the flag tracks being inside such a run. -/
def collapseRuns : List Char → Bool → List Char
  | [], _ => []
  | c :: rest, inRun =>
      if isSlugChar c then c :: collapseRuns rest false
      else if inRun then collapseRuns rest true
      else '-' :: collapseRuns rest true

/-- Replace of `/^-|-$/g` with `""`: strips the (single possible) leading and
trailing hyphen left by the run collapse. -/
def stripEdges (l : List Char) : List Char :=
  let l1 := if l.head? = some '-' then l.tail else l
  if l1.getLast? = some '-' then l1.dropLast else l1

/-- Lines 827-834: `createSlug`. -/
def createSlug (value : String) : String :=
  let s := String.mk (stripEdges (collapseRuns (jsToLower (jsTrim value)).data false))
  if s = "" then "resource" else s

/-- Lines 235-238: the collision loop.  The JS `while` re-appends
`"-" + (usedSlugs.size + 1)` as long as the candidate is taken; every
iteration strictly lengthens the candidate, so `used.length + 1` rounds
always suffice (`resolveSlug_not_mem` below), making the fuel faithful. -/
def resolveSlug : Nat → List String → String → String
  | 0, _, slug => slug
  | fuel+1, used, slug =>
      if slug ∈ used then resolveSlug fuel used (slug ++ "-" ++ toString (used.length + 1))
      else slug

/-- Spaces-joined list, as `Array.prototype.join(" ")`. -/
def joinSpace : List String → String
  | [] => ""
  | [s] => s
  | s :: rest => s ++ " " ++ joinSpace rest

/-- Lines 241-289: turning one accumulator (with its unique slug) into the
final `Document`. -/
def buildDocument (dparse : String → Option Int) (shtml : String → String)
    (slug : String) (a : DocAcc) : Document :=
  let versions0 := jsSort (versionLe dparse) (a.versions.map (fun p => p.2))
  let versions := versions0.map (fun v => { v with options := jsSort optionLe v.options })
  let optionTypes := versions.foldl
    (fun acc v => v.options.foldl (fun acc o => if o.type = "" then acc else insertSet acc o.type) acc) []
  let optionTypesList := jsSort strLe optionTypes
  let contextsList := jsSort strLe a.contexts
  let latestPublished := versions.foldl (fun acc v => max acc (parseDate dparse v.published)) 0
  let searchParts := [a.documentNumber, a.apiName, a.description,
    joinSpace a.categories, joinSpace contextsList, joinSpace a.lifecycle,
    joinSpace (versions.map (fun v => v.version)), joinSpace optionTypesList]
  let searchIndex := jsToLower (shtml (joinSpace searchParts))
  { id := slug, key := a.key,
    documentNumber := jsOr a.documentNumber a.key,
    apiName := jsOr a.apiName (jsOr a.documentNumber a.key),
    description := a.description,
    categories := jsSort strLe a.categories,
    contexts := contextsList,
    lifecycle := jsSort strLe a.lifecycle,
    versions := versions,
    optionTypes := optionTypesList,
    primaryType := optionTypesList.headD "",
    latestPublished := latestPublished,
    searchIndex := searchIndex }

/-- Lines 231-290: iterate `documentsByKey`, assigning each key a fresh slug. -/
def buildDocs (dparse : String → Option Int) (shtml : String → String) :
    List (String × DocAcc) → List String → List Document
  | [], _ => []
  | (k, a) :: rest, used =>
      let slug := resolveSlug (used.length + 1) used (createSlug k)
      buildDocument dparse shtml slug a :: buildDocs dparse shtml rest (used ++ [slug])

/-- Lines 148-294 on an already-flattened entry stream: grouping, slug
assignment, per-document derivation and the final canonical sort. -/
def normalisePure (dparse : String → Option Int) (shtml : String → String)
    (entries : List (String × RawEntry)) : List Document :=
  jsSort docLe (buildDocs dparse shtml (foldEntries entries) [])

/-! ## Raw payload shapes and the fallible outer traversal

`Object.entries(payload || ...)` iterates categories; each category value
(`groupedResources`) may be any JS value, and each of its member values
(`entries`) likewise.  `entries.forEach` throws a `TypeError` whenever
`entries` is not an array, so the traversal is fallible. -/

inductive EntriesVal where
  | arr (entries : List RawEntry)
  | notArr
deriving DecidableEq

inductive GroupedVal where
  | nullish
  | prim
  | strv (s : String)
  | objv (groups : List (String × EntriesVal))
deriving DecidableEq

def forEachTypeError : String := "TypeError: entries.forEach is not a function"

def optionsForEachTypeError : String := "TypeError: entry.options.forEach is not a function"

/-- Iterating `Object.values(groupedResources)` for an object value: an
`arr` member contributes its entries — unless one of them carries a truthy
non-array `options` value, in which case folding that entry throws at line
218 (`(entry?.options || []).forEach`); a `notArr` member (null, number,
boolean, plain object, ...) throws when `.forEach` is called on it at line
153.  In the script both throws happen while folding; surfacing them here,
during the flattening traversal, yields the same `Except` result because
nothing recovers from either exception. -/
def collectGroups : List (String × EntriesVal) → Except String (List RawEntry)
  | [] => .ok []
  | (_, .arr es) :: rest =>
      if es.any entryOptionsThrow then .error optionsForEachTypeError
      else (collectGroups rest).map (fun more => es ++ more)
  | (_, .notArr) :: _ => .error forEachTypeError

/-- One category value: falsy values are replaced by an empty object
(`groupedResources || ...`, line 152), a truthy non-object primitive has no
own enumerable properties, a truthy string enumerates its characters (each a
string, whose `.forEach` throws), an object iterates its member values. -/
def collectGroup : GroupedVal → Except String (List RawEntry)
  | .nullish => .ok []
  | .prim => .ok []
  | .strv s => if s = "" then .ok [] else .error forEachTypeError
  | .objv groups => collectGroups groups

/-- Flattening the whole payload into the `(categoryName, entry)` stream in
iteration order. -/
def collectEntries : List (String × GroupedVal) → Except String (List (String × RawEntry))
  | [] => .ok []
  | (categoryName, g) :: rest =>
      match collectGroup g with
      | .error msg => .error msg
      | .ok es =>
          match collectEntries rest with
          | .error msg => .error msg
          | .ok more => .ok ((es.map (fun e => (categoryName, e))) ++ more)

/-- Lines 148-295 (`normaliseResources`): a `none` payload is replaced by an
empty object (line 151); a thrown `TypeError` from the traversal is the
`Except.error` case. -/
def normaliseResources (dparse : String → Option Int) (shtml : String → String)
    (payload : Option (List (String × GroupedVal))) : Except String (List Document) :=
  match payload with
  | none => .ok (normalisePure dparse shtml [])
  | some groups => (collectEntries groups).map (normalisePure dparse shtml)

/-! ## Filter / sort / pagination engine (script.js lines 48-89, 362-374, 594-640) -/

/-- Mutable application state relevant to filtering and pagination.
`pageSize` is initialised to 10 and never reassigned by the script. -/
structure AppState where
  documents : List Document
  filtered : List Document
  currentPage : Nat
  pageSize : Nat
  searchTerm : String
  currentSort : String
  activeCategory : String
  activeDomain : String

/-- Lines 595-611: the filtering predicate (category, then domain, then
substring search), with the early `return false` branches folded into one
conjunction. -/
def docMatches (s : AppState) (doc : Document) : Bool :=
  (s.activeCategory == "all" || doc.categories.contains s.activeCategory) &&
  ((s.activeDomain == "all" || doc.contexts.contains s.activeDomain) &&
   (s.searchTerm == "" || jsIncludes doc.searchIndex s.searchTerm))

/-- Lines 623-640 (`sortDocuments`): the switch on the current sort key;
`"name"` and the default arm coincide. -/
def sortDocuments (currentSort : String) (items : List Document) : List Document :=
  if currentSort = "type" then
    jsSort (fun a b => cmpOr (compareStrings a.primaryType b.primaryType) (compareStrings a.apiName b.apiName) ≤ 0) items
  else if currentSort = "date" then
    jsSort (fun a b => cmpOr (b.latestPublished - a.latestPublished) (compareStrings a.apiName b.apiName) ≤ 0) items
  else
    jsSort (fun a b => cmpOr (compareStrings a.apiName b.apiName) (compareStrings a.documentNumber b.documentNumber) ≤ 0) items

/-- Natural-number `Math.ceil(a / b)`. -/
def jsCeilDiv (a b : Nat) : Nat :=
  (a + b - 1) / b

/-- Lines 594-621 (`applyFilters`) up to its `renderRoute()` call: recompute
the filtered collection and reset — not clamp — the page when it exceeds
`maxPages`. -/
def applyFilters (s : AppState) : AppState :=
  let fl := sortDocuments s.currentSort (s.documents.filter (docMatches s))
  let s1 : AppState := { s with filtered := fl }
  let maxPages := jsCeilDiv (max fl.length 1) s1.pageSize
  if s1.currentPage > maxPages then { s1 with currentPage := 1 } else s1

/-- Lines 362-371: the page adjustments performed at the top of
`renderIndex` (clamp to the last page when non-empty, reset to 1 when empty). -/
def renderIndexPage (s : AppState) : AppState :=
  let totalItems := s.filtered.length
  let totalPages := if totalItems = 0 then 0 else jsCeilDiv totalItems s.pageSize
  let s1 := if totalPages ≠ 0 ∧ s.currentPage > totalPages then { s with currentPage := totalPages } else s
  if totalPages = 0 then { s1 with currentPage := 1 } else s1

/-- Lines 49-53: the search input handler. -/
def onSearchInput (v : String) (s : AppState) : AppState :=
  applyFilters { s with searchTerm := jsToLower (jsTrim v), currentPage := 1 }

/-- Lines 55-59: the category select handler. -/
def onCategoryChange (v : String) (s : AppState) : AppState :=
  applyFilters { s with activeCategory := v, currentPage := 1 }

/-- Lines 61-65: the domain select handler. -/
def onDomainChange (v : String) (s : AppState) : AppState :=
  applyFilters { s with activeDomain := v, currentPage := 1 }

/-- Lines 67-71: the sort select handler. -/
def onSortChange (v : String) (s : AppState) : AppState :=
  applyFilters { s with currentSort := v, currentPage := 1 }

/-! ## Router (script.js lines 297-360) -/

inductive Route where
  | index
  | detail (id : String)
deriving DecidableEq

def routeIsDetail : Route → Bool
  | .index => false
  | .detail _ => true

/-- Observable effects of a `renderRoute()` call, in program order. -/
inductive UIAction where
  | setDetailHidden (b : Bool)
  | toggleViewDetail (b : Bool)
  | breadcrumbHome
  | breadcrumbDoc (d : Document)
  | statusNotice (msg : String)
  | navigateIndex
  | renderDetail (d : Document)
  | clearDetailView
  | renderIndexView
deriving DecidableEq

/-- State read by `renderRoute`: the loaded collection (from which
`state.documentMap` is built at line 129), the filtered collection, and the
current route. -/
structure RouterState where
  documents : List Document
  filtered : List Document
  route : Route

/-- Lookup in `new Map(documents.map((doc) => [doc.id, doc]))`: a JS `Map`
keeps the last pair for a repeated key. -/
def documentMapGet (documents : List Document) (id : String) : Option Document :=
  documents.reverse.find? (fun d => d.id == id)

/-- Lines 322-360 (`renderRoute`) as the list of emitted UI effects. -/
def renderRoute (s : RouterState) : List UIAction :=
  let isDetail := routeIsDetail s.route
  let hdr := [UIAction.setDetailHidden (!isDetail), UIAction.toggleViewDetail isDetail]
  if s.documents.isEmpty then hdr ++ [.breadcrumbHome, .renderIndexView]
  else
    match s.route with
    | .detail id =>
        match documentMapGet s.documents id with
        | none => hdr ++ [.statusNotice "The requested API could not be found.", .navigateIndex]
        | some doc =>
            if s.filtered.any (fun item => item.id == id) then
              hdr ++ [.renderDetail doc, .breadcrumbDoc doc, .renderIndexView]
            else
              hdr ++ [.navigateIndex]
    | .index => hdr ++ [.clearDetailView, .breadcrumbHome, .renderIndexView]

/-! ## Payload loader (script.js lines 91-119) -/

def API_URL : String := "./index.json"

def uriHexDigit (n : Nat) : Char :=
  if n < 10 then Char.ofNat (48 + n) else Char.ofNat (55 + n)

/-- Characters `encodeURIComponent` leaves intact: alphanumerics and
`- _ . ! ~ * ' ( )` (39 and 42 are the apostrophe and the asterisk). -/
def isUnreservedURI (c : Char) : Bool :=
  (65 ≤ c.toNat && c.toNat ≤ 90) || (97 ≤ c.toNat && c.toNat ≤ 122) ||
  (48 ≤ c.toNat && c.toNat ≤ 57) ||
  c = '-' || c = '_' || c = '.' || c = '!' || c = '~' ||
  c.toNat = 42 || c.toNat = 39 || c = '(' || c = ')'

/-- ASCII model of `encodeURIComponent` (the script only applies it to
`"./index.json"`, which is ASCII). -/
def encodeURIComponent (s : String) : String :=
  String.mk (s.data.foldr
    (fun c acc =>
      if isUnreservedURI c then c :: acc
      else '%' :: uriHexDigit (c.toNat / 16 % 16) :: uriHexDigit (c.toNat % 16) :: acc)
    [])

/-- Lines 91-97 (`getApiSources`). -/
def getApiSources : List String :=
  [API_URL,
   "https://corsproxy.io/?" ++ encodeURIComponent API_URL,
   "https://r.jina.ai/" ++ API_URL]

/-- Lines 99-119 (`loadPayload`): `attempt` bundles one source try (fetch,
status check, JSON parse); `lastError` tracks the most recent failure, and a
`.error none` result stands for the final
`new Error("Unable to reach TMF resource index.")` fallback when no attempt
ever ran. -/
def loadPayloadAux {ε δ : Type} (attempt : String → Except ε δ) :
    List String → Option ε → Except (Option ε) (δ × String)
  | [], lastError => .error lastError
  | source :: rest, _lastError =>
      match attempt source with
      | .ok d => .ok (d, source)
      | .error e => loadPayloadAux attempt rest (some e)

def loadPayload {ε δ : Type} (attempt : String → Except ε δ) : Except (Option ε) (δ × String) :=
  loadPayloadAux attempt getApiSources none

/-! ## Properties of the grouping fold -/

/-- Lookup in the `documentsByKey` association list. -/
def lookupAcc (m : List (String × DocAcc)) (k : String) : Option DocAcc :=
  (m.find? (fun p => p.1 = k)).map (fun p => p.2)

/-- Entries of `payload` contributing to key `k`, in fold order. -/
def contribs (entries : List (String × RawEntry)) (k : String) : List (String × RawEntry) :=
  entries.filter (fun ce => entryKey ce.2 = k)

/-- First non-empty string of a list (empty default), the "first non-empty
value wins" selector. -/
def firstNonEmpty (l : List String) : String :=
  (l.filter (fun v => v ≠ "")).headD ""

theorem firstNonEmpty_cons (d : String) (l : List String) :
    firstNonEmpty (d :: l) = jsOr d (firstNonEmpty l) := by
  by_cases h : d = ""
  · simp [firstNonEmpty, jsOr, h]
  · simp [firstNonEmpty, jsOr, h]

theorem firstNonEmpty_all_ne {l : List String} (h : ∀ x ∈ l, x ≠ "") :
    firstNonEmpty l = l.headD "" := by
  cases l with
  | nil => rfl
  | cons a l =>
      have ha : a ≠ "" := h a (List.mem_cons_self a l)
      simp [firstNonEmpty, ha]

theorem jsOr_assoc (x y z : String) : jsOr (jsOr x y) z = jsOr x (jsOr y z) := by
  by_cases hx : x = "" <;> by_cases hy : y = "" <;> simp [jsOr, hx, hy]

theorem jsOr_self (x : String) : jsOr x x = x := by
  by_cases hx : x = "" <;> simp [jsOr, hx]

theorem find?_eq_head_filter (p : α → Bool) (l : List α) :
    l.find? p = (l.filter p).head? := by
  induction l with
  | nil => rfl
  | cons a l ih =>
      by_cases h : p a
      · rw [List.find?_cons_of_pos _ h, List.filter_cons_of_pos h]
        rfl
      · rw [List.find?_cons_of_neg _ h, List.filter_cons_of_neg h, ih]
theorem find?_key_map_update (l : List (String × DocAcc)) (c : String) (e : RawEntry)
    (k' : String) :
    (l.map (fun p => if p.1 = entryKey e then (p.1, updateAcc p.2 c e) else p)).find?
        (fun p => p.1 = k') =
      (l.find? (fun p => p.1 = k')).map
        (fun p => if p.1 = entryKey e then (p.1, updateAcc p.2 c e) else p) := by
  rw [List.find?_map]
  have hpred : ((fun p : String × DocAcc => decide (p.1 = k')) ∘
      (fun p => if p.1 = entryKey e then (p.1, updateAcc p.2 c e) else p)) =
      (fun p : String × DocAcc => decide (p.1 = k')) := by
    funext p
    by_cases hp : p.1 = entryKey e <;> simp [Function.comp, hp]
  rw [hpred]

theorem foldEntry_keys (m : List (String × DocAcc)) (c : String) (e : RawEntry) :
    (foldEntry m c e).map Prod.fst =
      if (m.find? (fun p => p.1 = entryKey e)).isSome then m.map Prod.fst
      else m.map Prod.fst ++ [entryKey e] := by
  unfold foldEntry
  have hmap : ∀ (l : List (String × DocAcc)),
      (l.map (fun p => if p.1 = entryKey e then (p.1, updateAcc p.2 c e) else p)).map Prod.fst =
        l.map Prod.fst := by
    intro l
    rw [List.map_map]
    refine List.map_congr_left ?_
    intro p _
    by_cases hp : p.1 = entryKey e <;> simp [Function.comp, hp]
  by_cases h : (m.find? (fun p => p.1 = entryKey e)).isSome
  · simp only [if_pos h, hmap]
  · simp only [if_neg h, hmap, List.map_append]
    rfl

theorem lookupAcc_foldEntry_ne (m : List (String × DocAcc)) (c : String) (e : RawEntry)
    {k' : String} (h : k' ≠ entryKey e) :
    lookupAcc (foldEntry m c e) k' = lookupAcc m k' := by
  unfold foldEntry lookupAcc
  by_cases hs : (m.find? (fun p => p.1 = entryKey e)).isSome
  · simp only [if_pos hs, find?_key_map_update]
    cases hf : m.find? (fun p => p.1 = k') with
    | none => rfl
    | some p =>
        have hp : p.1 = k' := by simpa using List.find?_some hf
        have hne : ¬ p.1 = entryKey e := by rw [hp]; exact h
        simp [hne]
  · simp only [if_neg hs, find?_key_map_update, List.find?_append]
    have hsingle : ([((entryKey e), initAcc (entryKey e) e)].find? (fun p => p.1 = k')) = none := by
      simp [List.find?_cons, Ne.symm h]
    rw [hsingle]
    cases hf : m.find? (fun p => p.1 = k') with
    | none => rfl
    | some p =>
        have hp : p.1 = k' := by simpa using List.find?_some hf
        have hne : ¬ p.1 = entryKey e := by rw [hp]; exact h
        simp [Option.or, hne]

theorem lookupAcc_foldEntry_eq (m : List (String × DocAcc)) (c : String) (e : RawEntry) :
    lookupAcc (foldEntry m c e) (entryKey e) =
      some (updateAcc ((lookupAcc m (entryKey e)).getD (initAcc (entryKey e) e)) c e) := by
  unfold foldEntry lookupAcc
  by_cases hs : (m.find? (fun p => p.1 = entryKey e)).isSome
  · simp only [if_pos hs, find?_key_map_update]
    cases hf : m.find? (fun p => p.1 = entryKey e) with
    | none => simp [hf] at hs
    | some p =>
        have hp : p.1 = entryKey e := by simpa using List.find?_some hf
        simp [hp]
  · simp only [if_neg hs, find?_key_map_update, List.find?_append]
    cases hf : m.find? (fun p => p.1 = entryKey e) with
    | some p => simp [hf] at hs
    | none =>
        simp [Option.or, List.find?_cons, hf]

theorem lookupAcc_foldl_isSome (entries : List (String × RawEntry))
    (m : List (String × DocAcc)) (k : String) :
    (lookupAcc (entries.foldl (fun m ce => foldEntry m ce.1 ce.2) m) k).isSome ↔
      (lookupAcc m k).isSome ∨ ∃ ce ∈ entries, entryKey ce.2 = k := by
  induction entries generalizing m with
  | nil => simp
  | cons ce rest ih =>
      rw [List.foldl_cons]
      rw [ih]
      by_cases hk : k = entryKey ce.2
      · subst hk
        constructor
        · intro _
          exact Or.inr ⟨ce, List.mem_cons_self _ _, rfl⟩
        · intro _
          left
          rw [lookupAcc_foldEntry_eq]
          rfl
      · rw [lookupAcc_foldEntry_ne m ce.1 ce.2 hk]
        constructor
        · rintro (h | ⟨ce', hmem, hkey⟩)
          · exact Or.inl h
          · exact Or.inr ⟨ce', List.mem_cons_of_mem _ hmem, hkey⟩
        · rintro (h | ⟨ce', hmem, hkey⟩)
          · exact Or.inl h
          · rcases List.mem_cons.mp hmem with rfl | hmem'
            · exact absurd hkey.symm hk
            · exact Or.inr ⟨ce', hmem', hkey⟩

/-- One induction covering every set-valued accumulator field: `f` projects
the field, `contrib ce x` says the pair `ce` contributes the element `x`. -/
theorem setfield_foldl (f : DocAcc → List String)
    (contrib : (String × RawEntry) → String → Prop)
    (hupd : ∀ a c e x, x ∈ f (updateAcc a c e) ↔ x ∈ f a ∨ contrib (c, e) x)
    (hinit : ∀ k e, f (initAcc k e) = []) :
    ∀ (entries : List (String × RawEntry)) (m : List (String × DocAcc)) (k x : String),
      (∃ a, lookupAcc (entries.foldl (fun m ce => foldEntry m ce.1 ce.2) m) k = some a ∧ x ∈ f a) ↔
        ((∃ a, lookupAcc m k = some a ∧ x ∈ f a) ∨
          ∃ ce ∈ entries, entryKey ce.2 = k ∧ contrib ce x) := by
  intro entries
  induction entries with
  | nil => simp
  | cons ce rest ih =>
      intro m k x
      rw [List.foldl_cons]
      rw [ih]
      by_cases hk : k = entryKey ce.2
      · subst hk
        have hbase : (∃ a, lookupAcc (foldEntry m ce.1 ce.2) (entryKey ce.2) = some a ∧ x ∈ f a) ↔
            ((∃ a, lookupAcc m (entryKey ce.2) = some a ∧ x ∈ f a) ∨ contrib ce x) := by
          rw [lookupAcc_foldEntry_eq]
          cases hl : lookupAcc m (entryKey ce.2) with
          | none =>
              simp only [hl, Option.getD_none]
              constructor
              · rintro ⟨a, ha, hx⟩
                have ha' : updateAcc (initAcc (entryKey ce.2) ce.2) ce.1 ce.2 = a := by
                  simpa using ha
                subst ha'
                rcases (hupd _ _ _ x).mp hx with h0 | hc
                · rw [hinit] at h0
                  simp at h0
                · exact Or.inr hc
              · rintro (⟨a, ha, _⟩ | hc)
                · simp at ha
                · exact ⟨_, rfl, (hupd _ _ _ x).mpr (Or.inr hc)⟩
          | some a =>
              simp only [hl, Option.getD_some]
              constructor
              · rintro ⟨b, hb, hx⟩
                have hb' : updateAcc a ce.1 ce.2 = b := by simpa using hb
                subst hb'
                rcases (hupd _ _ _ x).mp hx with h0 | hc
                · exact Or.inl ⟨a, rfl, h0⟩
                · exact Or.inr hc
              · rintro (⟨b, hb, hx⟩ | hc)
                · have hb' : a = b := by simpa using hb
                  subst hb'
                  exact ⟨_, rfl, (hupd _ _ _ x).mpr (Or.inl hx)⟩
                · exact ⟨_, rfl, (hupd _ _ _ x).mpr (Or.inr hc)⟩
        rw [hbase]
        constructor
        · rintro ((h | hc) | ⟨ce', hmem, hkey, hcon⟩)
          · exact Or.inl h
          · exact Or.inr ⟨ce, List.mem_cons_self _ _, rfl, hc⟩
          · exact Or.inr ⟨ce', List.mem_cons_of_mem _ hmem, hkey, hcon⟩
        · rintro (h | ⟨ce', hmem, hkey, hcon⟩)
          · exact Or.inl (Or.inl h)
          · rcases List.mem_cons.mp hmem with rfl | hmem'
            · exact Or.inl (Or.inr hcon)
            · exact Or.inr ⟨ce', hmem', hkey, hcon⟩
      · rw [lookupAcc_foldEntry_ne m ce.1 ce.2 hk]
        constructor
        · rintro (h | ⟨ce', hmem, hkey, hcon⟩)
          · exact Or.inl h
          · exact Or.inr ⟨ce', List.mem_cons_of_mem _ hmem, hkey, hcon⟩
        · rintro (h | ⟨ce', hmem, hkey, hcon⟩)
          · exact Or.inl h
          · rcases List.mem_cons.mp hmem with rfl | hmem'
            · exact absurd hkey.symm hk
            · exact Or.inr ⟨ce', hmem', hkey, hcon⟩

theorem mem_cats_updateAcc {a : DocAcc} {c : String} {e : RawEntry} {x : String} :
    x ∈ (updateAcc a c e).categories ↔ x ∈ a.categories ∨ (c ≠ "" ∧ x = c) := by
  by_cases hc : c = "" <;> simp [updateAcc, hc, mem_insertSet]

theorem mem_ctx_updateAcc {a : DocAcc} {c : String} {e : RawEntry} {x : String} :
    x ∈ (updateAcc a c e).contexts ↔ x ∈ a.contexts ∨ x ∈ entryContexts e := by
  simp [updateAcc, mem_foldl_insertSet]

theorem mem_life_updateAcc {a : DocAcc} {c : String} {e : RawEntry} {x : String} :
    x ∈ (updateAcc a c e).lifecycle ↔
      x ∈ a.lifecycle ∨ (e.lifecycle_status = some x ∧ x ≠ "") := by
  cases hls : e.lifecycle_status with
  | none => simp [updateAcc, hls]
  | some s =>
      by_cases hs : s = ""
      · subst hs
        simp only [updateAcc, hls, if_pos rfl]
        constructor
        · exact Or.inl
        · rintro (h | ⟨hx, hne⟩)
          · exact h
          · exact absurd hx.symm (by simpa using hne)
      · simp only [updateAcc, hls, if_neg hs, mem_insertSet]
        constructor
        · rintro (h | rfl)
          · exact Or.inl h
          · exact Or.inr ⟨rfl, hs⟩
        · rintro (h | ⟨hx, _⟩)
          · exact Or.inl h
          · simp only [Option.some.injEq] at hx
            exact Or.inr hx.symm

/-- One induction covering the create-once scalar fields (`documentNumber`,
`apiName`): `f` projects the field, `g` is the value the creating entry
writes; later entries never change it. -/
theorem firstset_foldl (f : DocAcc → String) (g : RawEntry → String)
    (hupd : ∀ a c e, f (updateAcc a c e) = f a)
    (hinit : ∀ k e, f (initAcc k e) = g e) :
    ∀ (entries : List (String × RawEntry)) (m : List (String × DocAcc)) (k : String),
      (lookupAcc (entries.foldl (fun m ce => foldEntry m ce.1 ce.2) m) k).map f =
        (match lookupAcc m k with
          | some a => some (f a)
          | none => (entries.find? (fun ce => entryKey ce.2 = k)).map (fun ce => g ce.2)) := by
  intro entries
  induction entries with
  | nil =>
      intro m k
      cases hl : lookupAcc m k <;> simp [hl]
  | cons ce rest ih =>
      intro m k
      rw [List.foldl_cons]
      rw [ih]
      by_cases hk : k = entryKey ce.2
      · subst hk
        rw [lookupAcc_foldEntry_eq]
        cases hl : lookupAcc m (entryKey ce.2) with
        | none =>
            simp [hl, hupd, hinit, List.find?_cons]
        | some a =>
            simp [hl, hupd]
      · rw [lookupAcc_foldEntry_ne m ce.1 ce.2 hk]
        cases hl : lookupAcc m k with
        | none =>
            have hpred : (decide (entryKey ce.2 = k)) = false := by
              simp [Ne.symm hk]
            simp [hl, List.find?_cons, hpred]
        | some a => simp [hl]

theorem jsOr_empty (x : String) : jsOr x "" = x := by
  by_cases hx : x = "" <;> simp [jsOr, hx]

theorem contribs_cons (ce : String × RawEntry) (rest : List (String × RawEntry)) (k : String) :
    contribs (ce :: rest) k =
      if entryKey ce.2 = k then ce :: contribs rest k else contribs rest k := by
  by_cases h : entryKey ce.2 = k <;> simp [contribs, List.filter_cons, h]

theorem desc_updateAcc (a : DocAcc) (c : String) (e : RawEntry) :
    (updateAcc a c e).description = jsOr a.description (entryDescription e) := rfl

theorem desc_initAcc (k : String) (e : RawEntry) :
    (initAcc k e).description = entryDescription e := rfl

theorem key_updateAcc (a : DocAcc) (c : String) (e : RawEntry) :
    (updateAcc a c e).key = a.key := rfl

theorem desc_foldl :
    ∀ (entries : List (String × RawEntry)) (m : List (String × DocAcc)) (k : String),
      (lookupAcc (entries.foldl (fun m ce => foldEntry m ce.1 ce.2) m) k).map
          (fun a => a.description) =
        (match lookupAcc m k with
          | some a =>
              some (jsOr a.description
                (firstNonEmpty ((contribs entries k).map (fun ce => entryDescription ce.2))))
          | none =>
              if contribs entries k = [] then none
              else some (firstNonEmpty ((contribs entries k).map (fun ce => entryDescription ce.2)))) := by
  intro entries
  induction entries with
  | nil =>
      intro m k
      cases hl : lookupAcc m k with
      | none => simp [hl, contribs]
      | some a => simp [hl, contribs, firstNonEmpty, jsOr_empty]
  | cons ce rest ih =>
      intro m k
      rw [List.foldl_cons, ih]
      by_cases hk : k = entryKey ce.2
      · subst hk
        rw [lookupAcc_foldEntry_eq]
        have hcontri : contribs (ce :: rest) (entryKey ce.2) =
            ce :: contribs rest (entryKey ce.2) := by
          simp [contribs_cons]
        cases hl : lookupAcc m (entryKey ce.2) with
        | none =>
            have hne : ¬ contribs (ce :: rest) (entryKey ce.2) = [] := by
              rw [hcontri]
              simp
            simp only [hl, Option.getD_none, hcontri, if_neg hne, List.map_cons,
              firstNonEmpty_cons, desc_updateAcc, desc_initAcc, jsOr_self]
            simp
        | some a =>
            simp only [hl, Option.getD_some, hcontri, List.map_cons,
              firstNonEmpty_cons, desc_updateAcc, jsOr_assoc]
      · rw [lookupAcc_foldEntry_ne m ce.1 ce.2 hk]
        have hcontri : contribs (ce :: rest) k = contribs rest k := by
          simp [contribs_cons, Ne.symm hk]
        rw [hcontri]

theorem keys_foldl_nodup :
    ∀ (entries : List (String × RawEntry)) (m : List (String × DocAcc)),
      (m.map Prod.fst).Nodup →
      ((entries.foldl (fun m ce => foldEntry m ce.1 ce.2) m).map Prod.fst).Nodup := by
  intro entries
  induction entries with
  | nil => intro m h; exact h
  | cons ce rest ih =>
      intro m h
      rw [List.foldl_cons]
      apply ih
      rw [foldEntry_keys]
      by_cases hs : (m.find? (fun p => p.1 = entryKey ce.2)).isSome
      · simpa [if_pos hs] using h
      · simp only [if_neg hs]
        have hnot : entryKey ce.2 ∉ m.map Prod.fst := by
          intro hmem
          rcases List.mem_map.mp hmem with ⟨p, hp, hfst⟩
          apply hs
          rw [List.find?_isSome]
          exact ⟨p, hp, by simp [hfst]⟩
        rw [List.nodup_append]
        refine ⟨h, by simp, ?_⟩
        intro a ha hb
        rw [List.mem_singleton] at hb
        subst hb
        exact hnot ha

theorem key_inv_foldEntry (m : List (String × DocAcc)) (c : String) (e : RawEntry)
    (h : ∀ p ∈ m, (p.2 : DocAcc).key = p.1) :
    ∀ p ∈ foldEntry m c e, (p.2 : DocAcc).key = p.1 := by
  intro p hp
  simp only [foldEntry] at hp
  rcases List.mem_map.mp hp with ⟨q, hq, rfl⟩
  have hqk : (q.2 : DocAcc).key = q.1 := by
    by_cases hs : (m.find? (fun p => p.1 = entryKey e)).isSome
    · rw [if_pos hs] at hq
      exact h q hq
    · rw [if_neg hs] at hq
      rcases List.mem_append.mp hq with hq' | hq'
      · exact h q hq'
      · have : q = (entryKey e, initAcc (entryKey e) e) := List.mem_singleton.mp hq'
        subst this
        rfl
  by_cases hq1 : q.1 = entryKey e
  · simp only [if_pos hq1]
    show (updateAcc q.2 c e).key = q.1
    rw [key_updateAcc, hqk]
  · simp only [if_neg hq1]
    exact hqk

theorem key_inv_foldl :
    ∀ (entries : List (String × RawEntry)) (m : List (String × DocAcc)),
      (∀ p ∈ m, (p.2 : DocAcc).key = p.1) →
      ∀ p ∈ entries.foldl (fun m ce => foldEntry m ce.1 ce.2) m, (p.2 : DocAcc).key = p.1 := by
  intro entries
  induction entries with
  | nil => intro m h; exact h
  | cons ce rest ih =>
      intro m h
      rw [List.foldl_cons]
      exact ih _ (key_inv_foldEntry m ce.1 ce.2 h)

theorem mem_of_lookupAcc {m : List (String × DocAcc)} {k : String} {a : DocAcc}
    (h : lookupAcc m k = some a) : (k, a) ∈ m := by
  unfold lookupAcc at h
  cases hf : m.find? (fun p => p.1 = k) with
  | none => rw [hf] at h; cases h
  | some p =>
      rw [hf] at h
      have hpk : p.1 = k := by simpa using List.find?_some hf
      have hpm : p ∈ m := List.mem_of_find?_eq_some hf
      have hpa : p.2 = a := by simpa using h
      have : (k, a) = p := by
        cases p
        simp_all
      rw [this]
      exact hpm

theorem lookupAcc_of_mem {m : List (String × DocAcc)} {k : String} {a : DocAcc}
    (hnd : (m.map Prod.fst).Nodup) (hmem : (k, a) ∈ m) : lookupAcc m k = some a := by
  induction m with
  | nil => cases hmem
  | cons q rest ih =>
      rw [List.map_cons, List.nodup_cons] at hnd
      by_cases hq : q.1 = k
      · have : (k, a) = q ∨ (k, a) ∈ rest := List.mem_cons.mp hmem
        rcases this with heq | hmem'
        · unfold lookupAcc
          rw [List.find?_cons_of_pos _ (by simp [hq])]
          rw [← heq]
          rfl
        · exfalso
          apply hnd.1
          rw [hq]
          exact List.mem_map.mpr ⟨(k, a), hmem', rfl⟩
      · have : (k, a) = q ∨ (k, a) ∈ rest := List.mem_cons.mp hmem
        rcases this with heq | hmem'
        · exfalso
          apply hq
          rw [← heq]
        · unfold lookupAcc
          rw [List.find?_cons_of_neg _ (by simp [hq])]
          exact ih hnd.2 hmem'

/-! ## Slug collision resolution terminates within its fuel -/

/-- Number of used slugs at least `n` characters long. -/
def countGe (used : List String) (n : Nat) : Nat :=
  used.countP (fun s => n ≤ s.length)

theorem countGe_le_length (used : List String) (n : Nat) : countGe used n ≤ used.length := by
  unfold countGe
  exact List.countP_le_length _

theorem countGe_lt_of_mem {used : List String} {slug : String} (h : slug ∈ used)
    {n' : Nat} (hn : slug.length < n') :
    countGe used n' < countGe used slug.length := by
  induction used with
  | nil => cases h
  | cons u rest ih =>
      unfold countGe at *
      rw [List.countP_cons, List.countP_cons]
      have hmono : rest.countP (fun s => decide (n' ≤ s.length)) ≤
          rest.countP (fun s => decide (slug.length ≤ s.length)) := by
        apply List.countP_mono_left
        intro x _ hx
        simp only [decide_eq_true_eq] at hx ⊢
        omega
      rcases List.mem_cons.mp h with heq | hmem
      · subst heq
        have h1 : (decide (n' ≤ slug.length)) = false := by
          simp only [decide_eq_false_iff_not]
          omega
        have h2 : (decide (slug.length ≤ slug.length)) = true := by simp
        rw [h1, h2]
        simp only [Bool.false_eq_true, if_false, if_true]
        omega
      · have hd := ih hmem
        by_cases hc1 : n' ≤ u.length
        · have hc2 : slug.length ≤ u.length := by omega
          have h1 : (decide (n' ≤ u.length)) = true := by simpa using hc1
          have h2 : (decide (slug.length ≤ u.length)) = true := by simpa using hc2
          rw [h1, h2]
          simp only [if_true]
          omega
        · have h1 : (decide (n' ≤ u.length)) = false := by simpa using hc1
          rw [h1]
          simp only [Bool.false_eq_true, if_false]
          by_cases hc2 : slug.length ≤ u.length
          · have h2 : (decide (slug.length ≤ u.length)) = true := by simpa using hc2
            rw [h2]
            simp only [if_true]
            omega
          · have h2 : (decide (slug.length ≤ u.length)) = false := by simpa using hc2
            rw [h2]
            simp only [Bool.false_eq_true, if_false]
            omega

theorem resolveSlug_not_mem :
    ∀ (fuel : Nat) (used : List String) (slug : String),
      countGe used slug.length < fuel → resolveSlug fuel used slug ∉ used := by
  intro fuel
  induction fuel with
  | zero =>
      intro used slug h
      exact absurd h (Nat.not_lt_zero _)
  | succ f ih =>
      intro used slug h
      unfold resolveSlug
      by_cases hmem : slug ∈ used
      · simp only [if_pos hmem]
        apply ih
        have hdash : ("-" : String).length = 1 := rfl
        have hlen : slug.length < (slug ++ "-" ++ toString (used.length + 1)).length := by
          simp only [String.length_append, hdash]
          omega
        have := countGe_lt_of_mem hmem hlen
        omega
      · simp only [if_neg hmem]
        exact hmem

/-! ## The documents produced by `buildDocs` -/

theorem buildDocument_id (dp : String → Option Int) (sh : String → String)
    (slug : String) (a : DocAcc) : (buildDocument dp sh slug a).id = slug := rfl

theorem buildDocument_key (dp : String → Option Int) (sh : String → String)
    (slug : String) (a : DocAcc) : (buildDocument dp sh slug a).key = a.key := rfl

theorem buildDocs_ids (dp : String → Option Int) (sh : String → String) :
    ∀ (m : List (String × DocAcc)) (used : List String),
      ((buildDocs dp sh m used).map (fun d => d.id)).Nodup ∧
      ∀ i ∈ (buildDocs dp sh m used).map (fun d => d.id), i ∉ used := by
  intro m
  induction m with
  | nil =>
      intro used
      simp [buildDocs]
  | cons p rest ih =>
      intro used
      obtain ⟨k, a⟩ := p
      simp only [buildDocs]
      have hslugfree : resolveSlug (used.length + 1) used (createSlug k) ∉ used := by
        apply resolveSlug_not_mem
        have := countGe_le_length used (createSlug k).length
        omega
      have hrest := ih (used ++ [resolveSlug (used.length + 1) used (createSlug k)])
      constructor
      · rw [List.map_cons, List.nodup_cons]
        constructor
        · intro hmem
          apply hrest.2 _ hmem
          simp [buildDocument_id]
        · exact hrest.1
      · intro i hi
        rw [List.map_cons, List.mem_cons] at hi
        rcases hi with rfl | hi
        · exact hslugfree
        · intro hiu
          exact (hrest.2 i hi) (List.mem_append.mpr (Or.inl hiu))

theorem buildDocs_mem (dp : String → Option Int) (sh : String → String) :
    ∀ (m : List (String × DocAcc)) (used : List String) (d : Document),
      d ∈ buildDocs dp sh m used →
      ∃ (k : String) (a : DocAcc) (slug : String), (k, a) ∈ m ∧ d = buildDocument dp sh slug a := by
  intro m
  induction m with
  | nil =>
      intro used d h
      simp [buildDocs] at h
  | cons p rest ih =>
      intro used d h
      obtain ⟨k, a⟩ := p
      simp only [buildDocs] at h
      rcases List.mem_cons.mp h with rfl | h'
      · exact ⟨k, a, _, List.mem_cons_self _ _, rfl⟩
      · rcases ih _ d h' with ⟨k', a', slug', hmem, hd⟩
        exact ⟨k', a', slug', List.mem_cons_of_mem _ hmem, hd⟩

theorem buildDocs_exists_key (dp : String → Option Int) (sh : String → String) :
    ∀ (m : List (String × DocAcc)) (used : List String) (k : String) (a : DocAcc),
      (k, a) ∈ m → ∃ d ∈ buildDocs dp sh m used, d.key = a.key := by
  intro m
  induction m with
  | nil =>
      intro used k a h
      cases h
  | cons p rest ih =>
      intro used k a h
      obtain ⟨k0, a0⟩ := p
      simp only [buildDocs]
      rcases List.mem_cons.mp h with heq | hmem
      · refine ⟨buildDocument dp sh (resolveSlug (used.length + 1) used (createSlug k0)) a0,
          List.mem_cons_self _ _, ?_⟩
        rw [buildDocument_key]
        cases heq
        rfl
      · rcases ih _ k a hmem with ⟨d, hd, hdkey⟩
        exact ⟨d, List.mem_cons_of_mem _ hd, hdkey⟩

theorem find?_id_of_nodup :
    ∀ (l : List Document), ((l.map (fun d => d.id)).Nodup) →
      ∀ d ∈ l, l.find? (fun x => x.id == d.id) = some d := by
  intro l
  induction l with
  | nil =>
      intro _ d hd
      cases hd
  | cons h t ih =>
      intro hnd d hd
      rw [List.map_cons, List.nodup_cons] at hnd
      rcases List.mem_cons.mp hd with rfl | hdt
      · rw [List.find?_cons_of_pos _ (by simp)]
      · have hne : (h.id == d.id) = false := by
          rw [beq_eq_false_iff_ne]
          intro hcontra
          apply hnd.1
          rw [hcontra]
          exact List.mem_map.mpr ⟨d, hdt, rfl⟩
        rw [List.find?_cons_of_neg _ (by simp [hne])]
        exact ih hnd.2 d hdt

theorem documentMapGet_self {docs : List Document} (hnd : (docs.map (fun d => d.id)).Nodup)
    {d : Document} (hd : d ∈ docs) : documentMapGet docs d.id = some d := by
  unfold documentMapGet
  have hnd' : (docs.reverse.map (fun d => d.id)).Nodup := by
    rw [List.map_reverse]
    exact List.nodup_reverse.mpr hnd
  exact find?_id_of_nodup docs.reverse hnd' d (List.mem_reverse.mpr hd)

/-! ## Version ordering -/

/-- The claim-level version order: strictly newer parsed date first, ties
broken by descending case-insensitive label comparison. -/
def versionOrder (dp : String → Option Int) (a b : Version) : Prop :=
  parseDate dp b.published < parseDate dp a.published ∨
    (parseDate dp a.published = parseDate dp b.published ∧
      compareStrings b.version a.version ≤ 0)

theorem versionLe_iff (dp : String → Option Int) (a b : Version) :
    versionLe dp a b = true ↔ versionOrder dp a b := by
  unfold versionLe versionCmp versionOrder
  by_cases h : parseDate dp b.published - parseDate dp a.published = 0
  · have heq : parseDate dp a.published = parseDate dp b.published := by omega
    rw [if_pos h]
    simp only [decide_eq_true_eq]
    constructor
    · intro hc
      exact Or.inr ⟨heq, hc⟩
    · rintro (hlt | ⟨_, hc⟩)
      · omega
      · exact hc
  · rw [if_neg h]
    simp only [decide_eq_true_eq]
    constructor
    · intro hle
      left
      omega
    · rintro (hlt | ⟨heq, _⟩)
      · omega
      · omega

theorem versionLe_trans (dp : String → Option Int) :
    ∀ x y z, versionLe dp x y = true → versionLe dp y z = true → versionLe dp x z = true := by
  intro x y z hxy hyz
  rw [versionLe_iff] at hxy hyz ⊢
  unfold versionOrder at hxy hyz ⊢
  rcases hxy with h1 | ⟨e1, c1⟩ <;> rcases hyz with h2 | ⟨e2, c2⟩
  · left; omega
  · left; omega
  · left; omega
  · right
    exact ⟨by omega, compareStrings_trans c2 c1⟩

theorem versionLe_total (dp : String → Option Int) :
    ∀ x y, versionLe dp x y = true ∨ versionLe dp y x = true := by
  intro x y
  rw [versionLe_iff, versionLe_iff]
  unfold versionOrder
  rcases lt_trichotomy (parseDate dp y.published) (parseDate dp x.published) with h | h | h
  · left; left; exact h
  · rcases compareStrings_total y.version x.version with hc | hc
    · left; right; exact ⟨h.symm, hc⟩
    · right; right; exact ⟨h, hc⟩
  · right; left; exact h

theorem versions_sorted (dp : String → Option Int) (sh : String → String) :
    ∀ (entries : List (String × RawEntry)) (d : Document),
      d ∈ normalisePure dp sh entries → d.versions.Pairwise (versionOrder dp) := by
  intro entries d hd
  unfold normalisePure at hd
  rw [mem_jsSort] at hd
  rcases buildDocs_mem dp sh _ _ d hd with ⟨k, a, slug, _, rfl⟩
  have hv : (buildDocument dp sh slug a).versions =
      ((jsSort (versionLe dp) (a.versions.map (fun p => p.2))).map
        (fun v => { v with options := jsSort optionLe v.options })) := rfl
  rw [hv]
  apply List.Pairwise.map (R := fun x y => versionLe dp x y = true)
  · intro x y hxy
    have : versionOrder dp x y := (versionLe_iff dp x y).mp hxy
    unfold versionOrder at this ⊢
    exact this
  · exact pairwise_jsSort (versionLe_trans dp) (versionLe_total dp) _

/-! ## Entry-level facts -/

theorem jsOrS_ne_empty {x : Option String} {d : String} (hd : d ≠ "") : jsOrS x d ≠ "" := by
  cases x with
  | none => exact hd
  | some s =>
      show (if s = "" then d else s) ≠ ""
      by_cases hs : s = ""
      · rw [if_pos hs]; exact hd
      · rw [if_neg hs]; exact hs

theorem entryDocumentNumber_ne (e : RawEntry) : entryDocumentNumber e ≠ "" := by
  unfold entryDocumentNumber
  exact jsOrS_ne_empty (jsOrS_ne_empty (jsOrS_ne_empty (by decide)))

theorem entryApiName_ne (e : RawEntry) : entryApiName e ≠ "" := by
  unfold entryApiName
  exact jsOrS_ne_empty (entryDocumentNumber_ne e)

theorem entryKey_eq_documentNumber (e : RawEntry) : entryKey e = entryDocumentNumber e := by
  unfold entryKey jsOr
  rw [if_neg (entryDocumentNumber_ne e)]

/-! ## Loader behaviour -/

theorem loadPayloadAux_first_success {ε δ : Type} (attempt : String → Except ε δ) :
    ∀ (pre : List String) (src : String) (post : List String) (le : Option ε) (d : δ),
      (∀ s' ∈ pre, ∃ e, attempt s' = .error e) → attempt src = .ok d →
      loadPayloadAux attempt (pre ++ src :: post) le = .ok (d, src) := by
  intro pre
  induction pre with
  | nil =>
      intro src post le d _ hok
      simp [loadPayloadAux, hok]
  | cons p rest ih =>
      intro src post le d hfail hok
      obtain ⟨e, he⟩ := hfail p (List.mem_cons_self _ _)
      simp only [List.cons_append, loadPayloadAux, he]
      exact ih src post (some e) d (fun s' h => hfail s' (List.mem_cons_of_mem _ h)) hok

theorem loadPayloadAux_all_fail {ε δ : Type} (attempt : String → Except ε δ) :
    ∀ (l : List String) (le : Option ε), l ≠ [] →
      (∀ s ∈ l, ∃ e, attempt s = .error e) →
      ∃ (last : String) (e : ε), l.getLast? = some last ∧ attempt last = .error e ∧
        loadPayloadAux attempt l le = .error (some e) := by
  intro l
  induction l with
  | nil =>
      intro le h _
      exact absurd rfl h
  | cons src rest ih =>
      intro le _ hfail
      obtain ⟨e, he⟩ := hfail src (List.mem_cons_self _ _)
      cases rest with
      | nil =>
          exact ⟨src, e, rfl, he, by simp [loadPayloadAux, he]⟩
      | cons r t =>
          obtain ⟨last, e', hlast, he', hrun⟩ :=
            ih (some e) (by simp) (fun s h => hfail s (List.mem_cons_of_mem _ h))
          refine ⟨last, e', ?_, he', ?_⟩
          · rw [List.getLast?_cons_cons]
            exact hlast
          · simp only [loadPayloadAux, he]
            exact hrun

/-! ## Payload well-formedness -/

/-- A category value the traversal survives: falsy, a non-string primitive,
or an object every member of which is an array. -/
def wfGroup : GroupedVal → Prop
  | .nullish => True
  | .prim => True
  | .strv s => s = ""
  | .objv groups =>
      ∀ p ∈ groups, ∃ es, p.2 = EntriesVal.arr es ∧ ∀ e ∈ es, e.options ≠ OptionsVal.notArr

def wfPayload : Option (List (String × GroupedVal)) → Prop
  | none => True
  | some groups => ∀ p ∈ groups, wfGroup p.2

theorem entryOptionsThrow_eq_true {e : RawEntry} :
    entryOptionsThrow e = true ↔ e.options = OptionsVal.notArr := by
  cases ho : e.options <;> simp [entryOptionsThrow, ho]

theorem collectGroups_ok_iff (groups : List (String × EntriesVal)) :
    (∃ es, collectGroups groups = .ok es) ↔
      ∀ p ∈ groups, ∃ es, p.2 = EntriesVal.arr es ∧
        ∀ e ∈ es, e.options ≠ OptionsVal.notArr := by
  induction groups with
  | nil => simp [collectGroups]
  | cons p rest ih =>
      obtain ⟨n, ev⟩ := p
      cases ev with
      | arr es =>
          simp only [collectGroups]
          by_cases hbad : es.any entryOptionsThrow = true
          · rw [if_pos hbad]
            constructor
            · rintro ⟨es', hes'⟩
              cases hes'
            · intro hall
              obtain ⟨es', hes', hgood⟩ := hall (n, EntriesVal.arr es) (List.mem_cons_self _ _)
              injection hes' with hee
              subst hee
              rcases List.any_eq_true.mp hbad with ⟨e, he, hthrow⟩
              exact absurd (entryOptionsThrow_eq_true.mp hthrow) (hgood e he)
          · rw [if_neg hbad]
            have hgood : ∀ e ∈ es, e.options ≠ OptionsVal.notArr := by
              intro e he hcon
              apply hbad
              rw [List.any_eq_true]
              exact ⟨e, he, entryOptionsThrow_eq_true.mpr hcon⟩
            constructor
            · rintro ⟨es', hes'⟩
              cases hrest : collectGroups rest with
              | error msg => rw [hrest] at hes'; cases hes'
              | ok more =>
                  intro q hq
                  rcases List.mem_cons.mp hq with rfl | hq'
                  · exact ⟨es, rfl, hgood⟩
                  · exact (ih.mp ⟨more, hrest⟩) q hq'
            · intro hall
              obtain ⟨more, hmore⟩ := ih.mpr (fun q hq => hall q (List.mem_cons_of_mem _ hq))
              exact ⟨es ++ more, by rw [hmore]; rfl⟩
      | notArr =>
          simp only [collectGroups]
          constructor
          · rintro ⟨es', hes'⟩
            cases hes'
          · intro hall
            obtain ⟨es, hes, _⟩ := hall (n, EntriesVal.notArr) (List.mem_cons_self _ _)
            cases hes
  
theorem collectGroup_ok_iff (g : GroupedVal) :
    (∃ es, collectGroup g = .ok es) ↔ wfGroup g := by
  cases g with
  | nullish => simp [collectGroup, wfGroup]
  | prim => simp [collectGroup, wfGroup]
  | strv s =>
      by_cases hs : s = ""
      · simp [collectGroup, wfGroup, hs]
      · simp only [collectGroup, wfGroup, if_neg hs]
        constructor
        · rintro ⟨es, hes⟩
          cases hes
        · intro h
          exact absurd h hs
  | objv groups =>
      simpa [collectGroup, wfGroup] using collectGroups_ok_iff groups

theorem collectEntries_ok_iff (groups : List (String × GroupedVal)) :
    (∃ es, collectEntries groups = .ok es) ↔ ∀ p ∈ groups, wfGroup p.2 := by
  induction groups with
  | nil => simp [collectEntries]
  | cons p rest ih =>
      obtain ⟨cat, g⟩ := p
      simp only [collectEntries]
      cases hg : collectGroup g with
      | error msg =>
          constructor
          · rintro ⟨es, hes⟩
            cases hes
          · intro hall
            have hwf : wfGroup g := hall (cat, g) (List.mem_cons_self _ _)
            obtain ⟨es, hes⟩ := (collectGroup_ok_iff g).mpr hwf
            rw [hg] at hes
            cases hes
      | ok es =>
          cases hrest : collectEntries rest with
          | error msg =>
              constructor
              · rintro ⟨es', hes'⟩
                cases hes'
              · intro hall
                obtain ⟨more, hmore⟩ := ih.mpr (fun q hq => hall q (List.mem_cons_of_mem _ hq))
                rw [hrest] at hmore
                cases hmore
          | ok more =>
              constructor
              · intro _
                intro q hq
                rcases List.mem_cons.mp hq with rfl | hq'
                · exact (collectGroup_ok_iff g).mp ⟨es, hg⟩
                · exact ih.mp ⟨more, hrest⟩ q hq'
              · intro _
                exact ⟨es.map (fun e => (cat, e)) ++ more, rfl⟩

theorem normaliseResources_ok_iff (dp : String → Option Int) (sh : String → String)
    (payload : Option (List (String × GroupedVal))) :
    (∃ docs, normaliseResources dp sh payload = .ok docs) ↔ wfPayload payload := by
  cases payload with
  | none =>
      simp only [normaliseResources, wfPayload]
      exact ⟨fun _ => trivial, fun _ => ⟨normalisePure dp sh [], rfl⟩⟩
  | some groups =>
      simp only [normaliseResources, wfPayload]
      rw [← collectEntries_ok_iff]
      constructor
      · rintro ⟨docs, hdocs⟩
        cases hce : collectEntries groups with
        | error msg => rw [hce] at hdocs; cases hdocs
        | ok es => exact ⟨es, rfl⟩
      · rintro ⟨es, hes⟩
        rw [hes]
        exact ⟨normalisePure dp sh es, rfl⟩

/-! ## Remaining helper facts -/

theorem buildDocs_keys (dp : String → Option Int) (sh : String → String) :
    ∀ (m : List (String × DocAcc)) (used : List String),
      (buildDocs dp sh m used).map (fun d => d.key) = m.map (fun p => p.2.key) := by
  intro m
  induction m with
  | nil => intro used; rfl
  | cons p rest ih =>
      intro used
      obtain ⟨k, a⟩ := p
      simp only [buildDocs, List.map_cons, buildDocument_key, ih]

theorem buildDocument_categories (dp : String → Option Int) (sh : String → String)
    (slug : String) (a : DocAcc) :
    (buildDocument dp sh slug a).categories = jsSort strLe a.categories := rfl

theorem buildDocument_contexts (dp : String → Option Int) (sh : String → String)
    (slug : String) (a : DocAcc) :
    (buildDocument dp sh slug a).contexts = jsSort strLe a.contexts := rfl

theorem buildDocument_lifecycle (dp : String → Option Int) (sh : String → String)
    (slug : String) (a : DocAcc) :
    (buildDocument dp sh slug a).lifecycle = jsSort strLe a.lifecycle := rfl

theorem buildDocument_description (dp : String → Option Int) (sh : String → String)
    (slug : String) (a : DocAcc) :
    (buildDocument dp sh slug a).description = a.description := rfl

theorem buildDocument_documentNumber (dp : String → Option Int) (sh : String → String)
    (slug : String) (a : DocAcc) :
    (buildDocument dp sh slug a).documentNumber = jsOr a.documentNumber a.key := rfl

theorem buildDocument_apiName (dp : String → Option Int) (sh : String → String)
    (slug : String) (a : DocAcc) :
    (buildDocument dp sh slug a).apiName = jsOr a.apiName (jsOr a.documentNumber a.key) := rfl

theorem applyFilters_page_one (s : AppState) (h : s.currentPage = 1) :
    (applyFilters s).currentPage = 1 := by
  simp only [applyFilters]
  split
  · rfl
  · exact h

theorem jsOrS_getD (x : Option String) (d : String) :
    jsOrS x d = if x.getD "" ≠ "" then x.getD "" else d := by
  cases x with
  | none => simp [jsOrS]
  | some s => by_cases hs : s = "" <;> simp [jsOrS, hs]

theorem exists_lookup_iff {mfin : List (String × DocAcc)} {k : String} {a : DocAcc}
    (ha : lookupAcc mfin k = some a) (P : DocAcc → Prop) :
    (∃ a', lookupAcc mfin k = some a' ∧ P a') ↔ P a := by
  constructor
  · rintro ⟨a', ha', hp⟩
    rw [ha] at ha'
    cases ha'
    exact hp
  · intro hp
    exact ⟨a, ha, hp⟩

theorem jsCeilDiv_reset (n ps cp : Nat) (hgt : cp > jsCeilDiv n ps)
    (hle : ¬ cp > jsCeilDiv (max n 1) ps) : cp = 1 := by
  by_cases hn : n = 0
  · subst hn
    have h0 : jsCeilDiv 0 ps = 0 := by
      unfold jsCeilDiv
      rcases Nat.eq_zero_or_pos ps with hp | hp
      · subst hp
        rfl
      · exact Nat.div_eq_of_lt (by omega)
    have hm : max 0 1 = 1 := rfl
    have h1 : jsCeilDiv (max 0 1) ps ≤ 1 := by
      rw [hm]
      unfold jsCeilDiv
      rcases Nat.eq_zero_or_pos ps with hp | hp
      · subst hp
        simp
      · have he : 1 + ps - 1 = ps := by omega
        rw [he, Nat.div_self hp]
    rw [h0] at hgt
    omega
  · have hm : max n 1 = n := max_eq_left (by omega)
    rw [hm] at hle
    omega

/-! ## The claims -/

/-- Claim C1: for every raw entry the dedup key is the document number when
non-empty, else the API name, else the first download option's name, else the
literal `"Untitled"`; an entry with none of these gets key and document
number `"Untitled"`. -/
theorem claim_C1 :
    (∀ e : RawEntry,
      entryKey e =
        (if e.document_number.getD "" ≠ "" then e.document_number.getD ""
         else if (entryApiNameOpt e).getD "" ≠ "" then (entryApiNameOpt e).getD ""
         else if (entryFirstOptionName e).getD "" ≠ "" then (entryFirstOptionName e).getD ""
         else "Untitled") ∧
      entryDocumentNumber e = entryKey e) ∧
    (∀ ctx lf vi ri pd nt,
      entryKey
        { document_number := none, api_description := none, context := ctx,
          lifecycle_status := lf, version_info := vi, release_info := ri,
          published_date := pd, notes := nt, options := OptionsVal.nullish } = "Untitled" ∧
      entryDocumentNumber
        { document_number := none, api_description := none, context := ctx,
          lifecycle_status := lf, version_info := vi, release_info := ri,
          published_date := pd, notes := nt, options := OptionsVal.nullish } = "Untitled") := by
  constructor
  · intro e
    constructor
    · rw [entryKey_eq_documentNumber]
      unfold entryDocumentNumber
      rw [jsOrS_getD, jsOrS_getD, jsOrS_getD]
    · rw [entryKey_eq_documentNumber]
  · intro ctx lf vi ri pd nt
    exact ⟨rfl, rfl⟩

/-- Claim C3: the ids of the documents produced by one normalisation run are
pairwise distinct, and every produced document resolves to itself in the
document map built over the run's output. -/
theorem claim_C3 (dp : String → Option Int) (sh : String → String)
    (entries : List (String × RawEntry)) :
    ((normalisePure dp sh entries).map (fun d => d.id)).Nodup ∧
    ∀ d ∈ normalisePure dp sh entries,
      documentMapGet (normalisePure dp sh entries) d.id = some d := by
  have hnd : ((normalisePure dp sh entries).map (fun d => d.id)).Nodup := by
    unfold normalisePure
    have hperm := (jsSort_perm docLe (buildDocs dp sh (foldEntries entries) [])).map
      (fun d => d.id)
    exact List.Perm.nodup hperm.symm (buildDocs_ids dp sh (foldEntries entries) []).1
  refine ⟨hnd, ?_⟩
  intro d hd
  exact documentMapGet_self hnd hd

/-- Claim C4: every produced document's versions are sorted descending by
parsed published date, ties broken by descending case-insensitive label
comparison; an empty published string (invalid for the host date parser)
parses to timestamp 0. -/
theorem claim_C4 (dp : String → Option Int) (sh : String → String) :
    (∀ (entries : List (String × RawEntry)) (d : Document),
      d ∈ normalisePure dp sh entries → d.versions.Pairwise (versionOrder dp)) ∧
    (dp "" = none → parseDate dp "" = 0) := by
  constructor
  · exact versions_sorted dp sh
  · intro h
    have hred : parseDate dp "" = (match dp "" with | some t => t | none => 0) := rfl
    rw [hred, h]

/-- Claim C5: every filter/sort input handler leaves the current page at 1,
the page-1 state survives the render pass, and when the previous page exceeds
the new page count `applyFilters` resets to page 1 instead of clamping. -/
theorem claim_C5 (v : String) (s : AppState) :
    (onSearchInput v s).currentPage = 1 ∧
    (onCategoryChange v s).currentPage = 1 ∧
    (onDomainChange v s).currentPage = 1 ∧
    (onSortChange v s).currentPage = 1 ∧
    (s.currentPage = 1 → (renderIndexPage s).currentPage = 1) ∧
    (s.currentPage >
        jsCeilDiv (sortDocuments s.currentSort (s.documents.filter (docMatches s))).length
          s.pageSize →
      (applyFilters s).currentPage = 1) := by
  refine ⟨applyFilters_page_one _ rfl, applyFilters_page_one _ rfl,
    applyFilters_page_one _ rfl, applyFilters_page_one _ rfl, ?_, ?_⟩
  · intro h1
    simp only [renderIndexPage]
    by_cases h0 : s.filtered.length = 0
    · simp [h0]
    · simp only [if_neg h0]
      by_cases htp : jsCeilDiv s.filtered.length s.pageSize = 0
      · simp [htp, h1]
      · have hne : ¬ (jsCeilDiv s.filtered.length s.pageSize ≠ 0 ∧
            s.currentPage > jsCeilDiv s.filtered.length s.pageSize) := by
          rw [h1]
          rintro ⟨_, hb⟩
          omega
        simp [htp, hne, h1]
  · intro hgt
    simp only [applyFilters]
    split
    · rfl
    · rename_i hle
      show s.currentPage = 1
      exact jsCeilDiv_reset _ _ _ hgt hle

/-- Claim C8 (counterexample): normalisation is not total on arbitrary
payloads — a group holding a non-array member makes `entries.forEach` (line
153) throw, and an entry whose `options` value is truthy but not an array
makes `(entry?.options || []).forEach` (line 218) throw. -/
theorem claim_C8_counterexample :
    normaliseResources (fun _ => none) (fun s => s)
      (some [("Cat", GroupedVal.objv [("G", EntriesVal.notArr)])]) =
      .error forEachTypeError ∧
    normaliseResources (fun _ => none) (fun s => s)
      (some [("Cat", GroupedVal.objv [("G", EntriesVal.arr
        [{ document_number := none, api_description := none, context := none,
           lifecycle_status := none, version_info := none, release_info := none,
           published_date := none, notes := none, options := OptionsVal.notArr }])])]) =
      .error optionsForEachTypeError :=
  ⟨rfl, rfl⟩

/-- Claim C8 (amended): `normaliseResources` never fails on a well-formed
payload — a null payload, or one whose category values are each falsy, a
non-string primitive, or an object all of whose members are arrays of entries
whose `options` fields are in turn absent/falsy or arrays; in particular
missing entry fields never cause a failure. -/
theorem claim_C8_amended (dp : String → Option Int) (sh : String → String)
    (payload : Option (List (String × GroupedVal))) (hwf : wfPayload payload) :
    ∃ docs, normaliseResources dp sh payload = .ok docs :=
  (normaliseResources_ok_iff dp sh payload).mpr hwf

/-- Claim C9: the loader tries its ordered source list sequentially,
short-circuiting on the first attempt that succeeds, and propagates the last
attempt's failure when every source fails. -/
theorem claim_C9 {ε δ : Type} (attempt : String → Except ε δ) :
    (∀ (pre : List String) (src : String) (post : List String) (d : δ),
      getApiSources = pre ++ src :: post →
      (∀ s' ∈ pre, ∃ e, attempt s' = .error e) →
      attempt src = .ok d →
      loadPayload attempt = .ok (d, src)) ∧
    ((∀ s ∈ getApiSources, ∃ e, attempt s = .error e) →
      ∃ (last : String) (e : ε), getApiSources.getLast? = some last ∧
        attempt last = .error e ∧ loadPayload attempt = .error (some e)) := by
  constructor
  · intro pre src post d hsplit hfail hok
    unfold loadPayload
    rw [hsplit]
    exact loadPayloadAux_first_success attempt pre src post none d hfail hok
  · intro hfail
    exact loadPayloadAux_all_fail attempt getApiSources none (by decide) hfail

/-- Claim C6: with a loaded (non-empty) collection, a detail route whose id
is missing from the document map redirects to the index with a user-visible
notice; an id that exists but is filtered out redirects silently; the detail
view is rendered only when the id exists and survives the filters. -/
theorem claim_C6 (s : RouterState) (id : String) (hne : s.documents ≠ [])
    (hroute : s.route = Route.detail id) :
    (documentMapGet s.documents id = none →
      UIAction.navigateIndex ∈ renderRoute s ∧
      (∃ msg, UIAction.statusNotice msg ∈ renderRoute s) ∧
      ∀ d, UIAction.renderDetail d ∉ renderRoute s) ∧
    (∀ d, documentMapGet s.documents id = some d →
      s.filtered.any (fun item => item.id == id) = false →
      UIAction.navigateIndex ∈ renderRoute s ∧
      (∀ msg, UIAction.statusNotice msg ∉ renderRoute s) ∧
      ∀ d', UIAction.renderDetail d' ∉ renderRoute s) ∧
    (∀ d, documentMapGet s.documents id = some d →
      s.filtered.any (fun item => item.id == id) = true →
      UIAction.renderDetail d ∈ renderRoute s ∧
      UIAction.navigateIndex ∉ renderRoute s ∧
      ∀ msg, UIAction.statusNotice msg ∉ renderRoute s) := by
  have hisEmpty : s.documents.isEmpty = false := by
    cases hd : s.documents with
    | nil => exact absurd hd hne
    | cons a t => rfl
  refine ⟨?_, ?_, ?_⟩
  · intro hnone
    have hact : renderRoute s =
        [UIAction.setDetailHidden false, UIAction.toggleViewDetail true,
         UIAction.statusNotice "The requested API could not be found.",
         UIAction.navigateIndex] := by
      unfold renderRoute
      rw [hroute]
      simp [hisEmpty, hnone, routeIsDetail]
    rw [hact]
    refine ⟨by simp, ⟨"The requested API could not be found.", by simp⟩, ?_⟩
    intro d
    simp
  · intro d hsome hfalse
    have hact : renderRoute s =
        [UIAction.setDetailHidden false, UIAction.toggleViewDetail true,
         UIAction.navigateIndex] := by
      unfold renderRoute
      rw [hroute]
      simp [hisEmpty, hsome, hfalse, routeIsDetail]
    rw [hact]
    refine ⟨by simp, ?_, ?_⟩
    · intro msg
      simp
    · intro d'
      simp
  · intro d hsome htrue
    have hact : renderRoute s =
        [UIAction.setDetailHidden false, UIAction.toggleViewDetail true,
         UIAction.renderDetail d, UIAction.breadcrumbDoc d,
         UIAction.renderIndexView] := by
      unfold renderRoute
      rw [hroute]
      simp [hisEmpty, hsome, htrue, routeIsDetail]
    rw [hact]
    refine ⟨by simp, by simp, ?_⟩
    intro msg
    simp

/-- Claim C10: while the document collection is empty, rendering a detail
route neither redirects to the index route nor surfaces a not-found notice;
the route reconciliation checks run only on a non-empty collection. -/
theorem claim_C10 (s : RouterState) (id : String) (hempty : s.documents = [])
    (hroute : s.route = Route.detail id) :
    UIAction.navigateIndex ∉ renderRoute s ∧
    (∀ msg, UIAction.statusNotice msg ∉ renderRoute s) ∧
    UIAction.renderIndexView ∈ renderRoute s := by
  have hact : renderRoute s =
      [UIAction.setDetailHidden false, UIAction.toggleViewDetail true,
       UIAction.breadcrumbHome, UIAction.renderIndexView] := by
    unfold renderRoute
    rw [hroute, hempty]
    rfl
  rw [hact]
  refine ⟨by simp, ?_, by simp⟩
  intro msg
  simp

/-- Claim C2: one normalisation run yields exactly one document per distinct
computed key — document keys are pairwise distinct, a key appears among the
documents exactly when some raw entry computes it, and each document's
categories, contexts and lifecycle sets are the unions of all contributing
entries' values (regardless of which category or group the entries sat in). -/
theorem claim_C2 (dp : String → Option Int) (sh : String → String)
    (entries : List (String × RawEntry)) :
    ((normalisePure dp sh entries).map (fun d => d.key)).Nodup ∧
    (∀ k : String,
      (∃ d ∈ normalisePure dp sh entries, d.key = k) ↔ ∃ ce ∈ entries, entryKey ce.2 = k) ∧
    (∀ d ∈ normalisePure dp sh entries,
      (∀ c, c ∈ d.categories ↔ (c ≠ "" ∧ ∃ ce ∈ entries, entryKey ce.2 = d.key ∧ ce.1 = c)) ∧
      (∀ x, x ∈ d.contexts ↔ ∃ ce ∈ entries, entryKey ce.2 = d.key ∧ x ∈ entryContexts ce.2) ∧
      (∀ x, x ∈ d.lifecycle ↔
        (x ≠ "" ∧ ∃ ce ∈ entries, entryKey ce.2 = d.key ∧ ce.2.lifecycle_status = some x))) := by
  have hfold : foldEntries entries = entries.foldl (fun m ce => foldEntry m ce.1 ce.2) [] := rfl
  have hmkeys : ((foldEntries entries).map Prod.fst).Nodup := by
    rw [hfold]
    exact keys_foldl_nodup entries [] (by simp)
  have hkeyinv : ∀ p ∈ foldEntries entries, (p.2 : DocAcc).key = p.1 := by
    rw [hfold]
    exact key_inv_foldl entries [] (by simp)
  have hkeysEq : (buildDocs dp sh (foldEntries entries) []).map (fun d => d.key) =
      (foldEntries entries).map Prod.fst := by
    rw [buildDocs_keys]
    exact List.map_congr_left hkeyinv
  have hdocsKeys : ((normalisePure dp sh entries).map (fun d => d.key)).Nodup := by
    unfold normalisePure
    apply List.Perm.nodup
      ((jsSort_perm docLe (buildDocs dp sh (foldEntries entries) [])).map (fun d => d.key)).symm
    rw [hkeysEq]
    exact hmkeys
  refine ⟨hdocsKeys, ?_, ?_⟩
  · intro k
    constructor
    · rintro ⟨d, hd, rfl⟩
      unfold normalisePure at hd
      rw [mem_jsSort] at hd
      rcases buildDocs_mem dp sh _ _ d hd with ⟨k0, a, slug, hmem, rfl⟩
      have hk0 : a.key = k0 := hkeyinv (k0, a) hmem
      rw [buildDocument_key, hk0]
      have hlk : lookupAcc (foldEntries entries) k0 = some a := lookupAcc_of_mem hmkeys hmem
      have hsome := (lookupAcc_foldl_isSome entries [] k0).mp (by rw [← hfold, hlk]; rfl)
      rcases hsome with habs | hex
      · exfalso
        simp [lookupAcc] at habs
      · exact hex
    · rintro ⟨ce, hce, hkey⟩
      have hsome : (lookupAcc (entries.foldl (fun m ce => foldEntry m ce.1 ce.2) []) k).isSome :=
        (lookupAcc_foldl_isSome entries [] k).mpr (Or.inr ⟨ce, hce, hkey⟩)
      rw [← hfold, Option.isSome_iff_exists] at hsome
      obtain ⟨a, ha⟩ := hsome
      have hmem : (k, a) ∈ foldEntries entries := mem_of_lookupAcc ha
      obtain ⟨d, hd, hdkey⟩ := buildDocs_exists_key dp sh (foldEntries entries) [] k a hmem
      refine ⟨d, ?_, ?_⟩
      · unfold normalisePure
        rw [mem_jsSort]
        exact hd
      · rw [hdkey]
        exact hkeyinv (k, a) hmem
  · intro d hd
    unfold normalisePure at hd
    rw [mem_jsSort] at hd
    rcases buildDocs_mem dp sh _ _ d hd with ⟨k0, a, slug, hmem, rfl⟩
    have hk0 : a.key = k0 := hkeyinv (k0, a) hmem
    have hlk' : lookupAcc (entries.foldl (fun m ce => foldEntry m ce.1 ce.2) []) k0 = some a := by
      rw [← hfold]
      exact lookupAcc_of_mem hmkeys hmem
    have hdkey : (buildDocument dp sh slug a).key = k0 := by
      rw [buildDocument_key, hk0]
    refine ⟨?_, ?_, ?_⟩
    · intro c
      rw [buildDocument_categories, mem_jsSort, hdkey]
      have hchar := setfield_foldl (fun a => a.categories)
        (fun p x => p.1 ≠ "" ∧ x = p.1)
        (fun a c e x => mem_cats_updateAcc) (fun k e => rfl) entries [] k0 c
      refine Iff.trans
        ((exists_lookup_iff hlk' (fun a' => c ∈ a'.categories)).symm.trans hchar) ?_
      constructor
      · rintro (habs | ⟨ce, hce, hkey, hne, hc⟩)
        · rcases habs with ⟨a', ha', _⟩
          simp [lookupAcc] at ha'
        · subst hc
          exact ⟨hne, ce, hce, hkey, rfl⟩
      · rintro ⟨hcne, ce, hce, hkey, hc⟩
        right
        refine ⟨ce, hce, hkey, ?_, hc.symm⟩
        rw [hc]
        exact hcne
    · intro x
      rw [buildDocument_contexts, mem_jsSort, hdkey]
      have hchar := setfield_foldl (fun a => a.contexts)
        (fun p x => x ∈ entryContexts p.2)
        (fun a c e x => mem_ctx_updateAcc) (fun k e => rfl) entries [] k0 x
      refine Iff.trans
        ((exists_lookup_iff hlk' (fun a' => x ∈ a'.contexts)).symm.trans hchar) ?_
      constructor
      · rintro (habs | hex)
        · rcases habs with ⟨a', ha', _⟩
          simp [lookupAcc] at ha'
        · exact hex
      · intro hex
        exact Or.inr hex
    · intro x
      rw [buildDocument_lifecycle, mem_jsSort, hdkey]
      have hchar := setfield_foldl (fun a => a.lifecycle)
        (fun p x => p.2.lifecycle_status = some x ∧ x ≠ "")
        (fun a c e x => mem_life_updateAcc) (fun k e => rfl) entries [] k0 x
      refine Iff.trans
        ((exists_lookup_iff hlk' (fun a' => x ∈ a'.lifecycle)).symm.trans hchar) ?_
      constructor
      · rintro (habs | ⟨ce, hce, hkey, hls, hne⟩)
        · rcases habs with ⟨a', ha', _⟩
          simp [lookupAcc] at ha'
        · exact ⟨hne, ce, hce, hkey, hls⟩
      · rintro ⟨hne, ce, hce, hkey, hls⟩
        exact Or.inr ⟨ce, hce, hkey, hls, hne⟩

theorem jsOr_of_ne {a : String} (h : a ≠ "") (b : String) : jsOr a b = a := by
  unfold jsOr
  rw [if_neg h]

/-- Claim C7: in every produced document, `documentNumber`, `apiName` and
`description` each equal the first non-empty per-entry value across the
contributing entries in fold order (the per-entry values being the ones the
script computes at lines 154-155 and 163/172); later non-empty values never
overwrite, and empty values never erase. -/
theorem claim_C7 (dp : String → Option Int) (sh : String → String)
    (entries : List (String × RawEntry)) :
    ∀ d ∈ normalisePure dp sh entries,
      d.documentNumber =
        firstNonEmpty ((contribs entries d.key).map (fun ce => entryDocumentNumber ce.2)) ∧
      d.apiName =
        firstNonEmpty ((contribs entries d.key).map (fun ce => entryApiName ce.2)) ∧
      d.description =
        firstNonEmpty ((contribs entries d.key).map (fun ce => entryDescription ce.2)) := by
  intro d hd
  have hfold : foldEntries entries = entries.foldl (fun m ce => foldEntry m ce.1 ce.2) [] := rfl
  have hmkeys : ((foldEntries entries).map Prod.fst).Nodup := by
    rw [hfold]
    exact keys_foldl_nodup entries [] (by simp)
  have hkeyinv : ∀ p ∈ foldEntries entries, (p.2 : DocAcc).key = p.1 := by
    rw [hfold]
    exact key_inv_foldl entries [] (by simp)
  unfold normalisePure at hd
  rw [mem_jsSort] at hd
  rcases buildDocs_mem dp sh _ _ d hd with ⟨k0, a, slug, hmem, rfl⟩
  have hk0 : a.key = k0 := hkeyinv (k0, a) hmem
  have hlk' : lookupAcc (entries.foldl (fun m ce => foldEntry m ce.1 ce.2) []) k0 = some a := by
    rw [← hfold]
    exact lookupAcc_of_mem hmkeys hmem
  have hdkey : (buildDocument dp sh slug a).key = k0 := by
    rw [buildDocument_key, hk0]
  have hdn := firstset_foldl (fun a => a.documentNumber) entryDocumentNumber
    (fun a c e => rfl) (fun k e => rfl) entries [] k0
  rw [hlk'] at hdn
  have hdnEq : some a.documentNumber =
      (entries.find? (fun ce => entryKey ce.2 = k0)).map (fun ce => entryDocumentNumber ce.2) :=
    hdn
  have han := firstset_foldl (fun a => a.apiName) entryApiName
    (fun a c e => rfl) (fun k e => rfl) entries [] k0
  rw [hlk'] at han
  have hanEq : some a.apiName =
      (entries.find? (fun ce => entryKey ce.2 = k0)).map (fun ce => entryApiName ce.2) :=
    han
  have hde := desc_foldl entries [] k0
  rw [hlk'] at hde
  have hdeEq : some a.description =
      (if contribs entries k0 = [] then none
       else some (firstNonEmpty ((contribs entries k0).map (fun ce => entryDescription ce.2)))) :=
    hde
  have hcdef : entries.filter (fun ce => entryKey ce.2 = k0) = contribs entries k0 := rfl
  rw [find?_eq_head_filter, hcdef] at hdnEq hanEq
  cases hcon : contribs entries k0 with
  | nil =>
      rw [hcon] at hdnEq
      simp at hdnEq
  | cons c0 rest =>
      have hallne_dn : ∀ x ∈ (c0 :: rest).map (fun ce => entryDocumentNumber ce.2), x ≠ "" := by
        intro x hx
        rcases List.mem_map.mp hx with ⟨ce, _, rfl⟩
        exact entryDocumentNumber_ne _
      have hallne_an : ∀ x ∈ (c0 :: rest).map (fun ce => entryApiName ce.2), x ≠ "" := by
        intro x hx
        rcases List.mem_map.mp hx with ⟨ce, _, rfl⟩
        exact entryApiName_ne _
      have ha_dn : a.documentNumber = entryDocumentNumber c0.2 := by
        rw [hcon] at hdnEq
        simpa using hdnEq
      have ha_an : a.apiName = entryApiName c0.2 := by
        rw [hcon] at hanEq
        simpa using hanEq
      have ha_de : a.description =
          firstNonEmpty ((c0 :: rest).map (fun ce => entryDescription ce.2)) := by
        rw [hcon] at hdeEq
        simpa using hdeEq
      have hne_dn : a.documentNumber ≠ "" := by
        rw [ha_dn]
        exact entryDocumentNumber_ne _
      have hne_an : a.apiName ≠ "" := by
        rw [ha_an]
        exact entryApiName_ne _
      refine ⟨?_, ?_, ?_⟩
      · rw [hdkey, buildDocument_documentNumber, jsOr_of_ne hne_dn, hcon,
          firstNonEmpty_all_ne hallne_dn]
        simpa using ha_dn
      · rw [hdkey, buildDocument_apiName, jsOr_of_ne hne_an, hcon,
          firstNonEmpty_all_ne hallne_an]
        simpa using ha_an
      · rw [hdkey, buildDocument_description, hcon]
        exact ha_de

/-! ## Concrete instances used by the witnesses -/

def wDP : String → Option Int :=
  fun s => if s = "2023 01 01" then some 100 else if s = "2024 06 15" then some 200 else none

def wSH : String → String := fun s => s

def wEntryEmpty : RawEntry :=
  { document_number := none, api_description := none, context := none, lifecycle_status := none,
    version_info := none, release_info := none, published_date := none, notes := none,
    options := OptionsVal.nullish }

def wEntryA : RawEntry :=
  { document_number := some "TMF630", api_description := some
      { api_name := some "API Management", api_description := some "" },
    context := some "Core, Ops ,", lifecycle_status := some "Historic",
    version_info := some "4.0.1", release_info := none, published_date := some "2023-01-01",
    notes := none, options := OptionsVal.arr [] }

def wEntryB : RawEntry :=
  { document_number := some "TMF630", api_description := none,
    context := some "Core", lifecycle_status := none, version_info := some "5.0",
    release_info := none, published_date := some "2024-06-15", notes := none,
    options := OptionsVal.arr [
      { type := some "User Guide", name := some "PDF", download := some "u",
        defaultFlag := none, icon := none }] }

def wEntries : List (String × RawEntry) := [("Open APIs", wEntryA), ("Legacy", wEntryB)]

def wDefaultDoc : Document :=
  { id := "x", key := "x", documentNumber := "x", apiName := "x", description := "",
    categories := [], contexts := [], lifecycle := [], versions := [], optionTypes := [],
    primaryType := "", latestPublished := 0, searchIndex := "" }

def wDoc : Document := (normalisePure wDP wSH wEntries).headD wDefaultDoc

def wEntryS1 : RawEntry :=
  { wEntryEmpty with document_number := some "TMF 1" }

def wEntryS2 : RawEntry :=
  { wEntryEmpty with document_number := some "TMF-1" }

def wEntriesC3 : List (String × RawEntry) := [("Cat", wEntryS1), ("Cat", wEntryS2)]

def wDocC3 : Document := (normalisePure wDP wSH wEntriesC3).headD wDefaultDoc

def wDocC4 : Document := (normalisePure wDP wSH wEntries).headD wDefaultDoc

def wState : AppState :=
  { documents := [], filtered := [], currentPage := 1, pageSize := 10, searchTerm := "",
    currentSort := "name", activeCategory := "all", activeDomain := "all" }

def wRDoc : Document :=
  { id := "tmf630", key := "TMF630", documentNumber := "TMF630", apiName := "API",
    description := "", categories := [], contexts := [], lifecycle := [], versions := [],
    optionTypes := [], primaryType := "", latestPublished := 0, searchIndex := "" }

def wRouter : RouterState :=
  { documents := [wRDoc], filtered := [wRDoc], route := Route.detail "tmf630" }

def wRouterEmpty : RouterState :=
  { documents := [], filtered := [], route := Route.detail "ghost" }

def wEntryD1 : RawEntry :=
  { wEntryEmpty with
      document_number := some "TMF630",
      api_description := some { api_name := none, api_description := some "" } }

def wEntryD2 : RawEntry :=
  { wEntryEmpty with
      document_number := some "TMF630",
      api_description := some { api_name := some "Product API", api_description := some "B" } }

def wEntriesC7 : List (String × RawEntry) := [("Cat", wEntryD1), ("Cat", wEntryD2)]

def wDocC7 : Document := (normalisePure wDP wSH wEntriesC7).headD wDefaultDoc

def wAttemptFail : String → Except Nat Nat := fun _ => .error 7

def wAttemptOk : String → Except Nat Nat :=
  fun src => if src = API_URL then .ok 42 else .error 0

theorem headD_mem {α : Type} {l : List α} (h : l ≠ []) (d : α) : l.headD d ∈ l := by
  cases l with
  | nil => exact absurd rfl h
  | cons a t => exact List.mem_cons_self a t

/-! ## Witnesses -/

/-- Witness for claim C2 at a concrete two-entry payload sharing one key. -/
theorem claim_C2_witness :
    ("Open APIs" ∈ wDoc.categories ↔
      ("Open APIs" ≠ "" ∧ ∃ ce ∈ wEntries, entryKey ce.2 = wDoc.key ∧ ce.1 = "Open APIs")) ∧
    ("Core" ∈ wDoc.contexts ↔
      ∃ ce ∈ wEntries, entryKey ce.2 = wDoc.key ∧ "Core" ∈ entryContexts ce.2) :=
  have h := (claim_C2 wDP wSH wEntries).2.2 wDoc (headD_mem (by decide) wDefaultDoc)
  ⟨h.1 "Open APIs", h.2.1 "Core"⟩

/-- Witness for claim C3 at a payload whose two keys share a slug base. -/
theorem claim_C3_witness :
    documentMapGet (normalisePure wDP wSH wEntriesC3) wDocC3.id = some wDocC3 :=
  (claim_C3 wDP wSH wEntriesC3).2 wDocC3 (headD_mem (by decide) wDefaultDoc)

/-- Witness for claim C4 at a document with published dates 2023-01-01 and
2024-06-15 and at the empty published string. -/
theorem claim_C4_witness :
    wDocC4.versions.Pairwise (versionOrder wDP) ∧ parseDate wDP "" = 0 :=
  ⟨(claim_C4 wDP wSH).1 wEntries wDocC4 (headD_mem (by decide) wDefaultDoc),
   (claim_C4 wDP wSH).2 rfl⟩

/-- Witness for claim C5 at a concrete state sitting on page 1. -/
theorem claim_C5_witness :
    (onSearchInput "Query" wState).currentPage = 1 ∧
    (renderIndexPage wState).currentPage = 1 ∧
    (applyFilters wState).currentPage = 1 :=
  have h := claim_C5 "Query" wState
  ⟨h.1, h.2.2.2.2.1 (by decide), h.2.2.2.2.2 (by decide)⟩

/-- Witness for claim C6 at a loaded state whose detail id exists and
survives the filters. -/
theorem claim_C6_witness :
    UIAction.renderDetail wRDoc ∈ renderRoute wRouter ∧
    UIAction.navigateIndex ∉ renderRoute wRouter :=
  have h := (claim_C6 wRouter "tmf630" (List.cons_ne_nil _ _) rfl).2.2 wRDoc rfl rfl
  ⟨h.1, h.2.1⟩

/-- Witness for claim C7 at entries whose first description is empty and
second is "B". -/
theorem claim_C7_witness :
    wDocC7.description =
      firstNonEmpty ((contribs wEntriesC7 wDocC7.key).map (fun ce => entryDescription ce.2)) ∧
    wDocC7.documentNumber =
      firstNonEmpty ((contribs wEntriesC7 wDocC7.key).map (fun ce => entryDocumentNumber ce.2)) :=
  have h := claim_C7 wDP wSH wEntriesC7 wDocC7 (headD_mem (by decide) wDefaultDoc)
  ⟨h.2.2, h.1⟩

/-- Witness for the amended claim C8 at a concrete well-formed payload. -/
theorem claim_C8_witness :
    ∃ docs, normaliseResources wDP wSH
      (some [("Cat", GroupedVal.objv [("G", EntriesVal.arr [wEntryEmpty])]),
             ("X", GroupedVal.nullish)]) = .ok docs :=
  claim_C8_amended wDP wSH _ (by
    intro p hp
    rcases List.mem_cons.mp hp with rfl | hp
    · intro q hq
      rcases List.mem_cons.mp hq with rfl | hq
      · exact ⟨[wEntryEmpty], rfl, by decide⟩
      · cases hq
    · rcases List.mem_cons.mp hp with rfl | hp
      · trivial
      · cases hp)

/-- Witness for claim C9: a first-source success short-circuits, and a
uniformly failing attempt propagates the last source's error. -/
theorem claim_C9_witness :
    loadPayload wAttemptOk = .ok (42, API_URL) ∧
    ∃ (last : String) (e : Nat), getApiSources.getLast? = some last ∧
      wAttemptFail last = .error e ∧ loadPayload wAttemptFail = .error (some e) :=
  ⟨(claim_C9 wAttemptOk).1 []
      API_URL
      ["https://corsproxy.io/?" ++ encodeURIComponent API_URL, "https://r.jina.ai/" ++ API_URL]
      42 rfl (fun s' h => absurd h (List.not_mem_nil s')) rfl,
   (claim_C9 wAttemptFail).2 (fun _ _ => ⟨7, rfl⟩)⟩

/-- Witness for claim C10 at the pre-load empty state on a detail route. -/
theorem claim_C10_witness :
    UIAction.navigateIndex ∉ renderRoute wRouterEmpty ∧
    UIAction.renderIndexView ∈ renderRoute wRouterEmpty :=
  have h := claim_C10 wRouterEmpty "ghost" rfl rfl
  ⟨h.1, h.2.2⟩
